import Mathlib

/-!
# Verification of the rfvis tree parsing and layout engine

Shallow embedding of the core of the `rfvis` repository:

* `src/src/components/TreeView.js` — the React layout engine
  (`generateTreeElements`, `walkAndApply`, `markPathElements`,
  `addBranchInformation`) together with the parser module concatenated in the
  same file (`createForest`, `parseCorrelationMatrix`,
  `parseStatisticsContent`);
* `src/app/draw.mjs` — the standalone layout engine (`generateTreeElements`,
  `branchStrategy`).

JavaScript numbers are modelled by `JSNum` (a rational, `NaN`, or a signed
infinity) so that the `0/0 → NaN` cases of the layout arithmetic are
represented faithfully.  JavaScript runtime failures (`TypeError` from a
property access on `undefined`, thrown strings, stack exhaustion) are
modelled by the `JSErr` type; fallible code returns `Except JSErr _`.

The node model (`TreeNodes.js`) and `TreeView.getLeafNodes` are referenced by
the sources but are not part of the repository snapshot; they are modelled
from the specification and marked as such in their doc comments.
-/

/-- JavaScript runtime/thrown errors relevant to the embedded code.
`formatError` is the thrown string "Unknown tree file format",
`structuralError` the thrown string "Malformed statistics content",
`typeError` is a `TypeError` (property access or call on `undefined`),
`rangeError` models stack exhaustion of unbounded recursion. -/
inductive JSErr where
  | formatError
  | structuralError
  | typeError
  | rangeError
  deriving DecidableEq, Repr

deriving instance DecidableEq for Except

/-! Batteries marks `Rat.add`, `Rat.sub`, `Rat.mul` and `Rat.inv` as
irreducible, which blocks kernel evaluation of concrete instances; the
rational arithmetic below is therefore written with `mkRat`.  The
`rat*_eq_*` theorems later in the file show each one agrees with the
corresponding field operation of `ℚ`. -/

/-- Exact rational division, written with `mkRat` so that every concrete
instance reduces inside the kernel. -/
def ratDiv (a b : ℚ) : ℚ :=
  let n : ℤ := a.num * (b.den : ℤ)
  let d : ℤ := (a.den : ℤ) * b.num
  if d < 0 then mkRat (-n) (-d).toNat else mkRat n d.toNat

/-- Exact rational addition via `mkRat`. -/
def ratAdd (a b : ℚ) : ℚ :=
  mkRat (a.num * (b.den : ℤ) + b.num * (a.den : ℤ)) (a.den * b.den)

/-- Exact rational subtraction via `mkRat`. -/
def ratSub (a b : ℚ) : ℚ :=
  mkRat (a.num * (b.den : ℤ) - b.num * (a.den : ℤ)) (a.den * b.den)

/-- Exact rational multiplication via `mkRat`. -/
def ratMul (a b : ℚ) : ℚ :=
  mkRat (a.num * b.num) (a.den * b.den)

/-- Exact rational negation via `mkRat`. -/
def ratNeg (a : ℚ) : ℚ := mkRat (-a.num) a.den

/-- Exact rational absolute value. -/
def ratAbs (a : ℚ) : ℚ := if a.num < 0 then ratNeg a else a

/-- A JavaScript (IEEE double) number, modelled exactly for the operations the
embedded code performs: a finite value is an exact rational, plus `NaN` and
the two infinities.  Rounding is irrelevant to every claim considered. -/
inductive JSNum where
  | num (q : ℚ)
  | nan
  | posInf
  | negInf
  deriving DecidableEq, Repr

namespace JSNum

instance : Inhabited JSNum := ⟨nan⟩

instance : OfNat JSNum n := ⟨.num n⟩

instance : Coe ℚ JSNum := ⟨.num⟩

/-- JS addition. -/
def add : JSNum → JSNum → JSNum
  | num a, num b => num (ratAdd a b)
  | num _, posInf => posInf
  | num _, negInf => negInf
  | posInf, num _ => posInf
  | negInf, num _ => negInf
  | posInf, posInf => posInf
  | negInf, negInf => negInf
  | posInf, negInf => nan
  | negInf, posInf => nan
  | nan, _ => nan
  | _, nan => nan

/-- JS subtraction. -/
def sub : JSNum → JSNum → JSNum
  | num a, num b => num (ratSub a b)
  | num _, posInf => negInf
  | num _, negInf => posInf
  | posInf, num _ => posInf
  | negInf, num _ => negInf
  | posInf, negInf => posInf
  | negInf, posInf => negInf
  | posInf, posInf => nan
  | negInf, negInf => nan
  | nan, _ => nan
  | _, nan => nan

/-- JS multiplication (`0 * ±Infinity = NaN`). -/
def mul : JSNum → JSNum → JSNum
  | num a, num b => num (ratMul a b)
  | num a, posInf => if a > 0 then posInf else if a < 0 then negInf else nan
  | num a, negInf => if a > 0 then negInf else if a < 0 then posInf else nan
  | posInf, num b => if b > 0 then posInf else if b < 0 then negInf else nan
  | negInf, num b => if b > 0 then negInf else if b < 0 then posInf else nan
  | posInf, posInf => posInf
  | negInf, negInf => posInf
  | posInf, negInf => negInf
  | negInf, posInf => negInf
  | nan, _ => nan
  | _, nan => nan

/-- JS division (`0/0 = NaN`, `q/0 = ±Infinity`, `q/±Infinity = 0`). -/
def div : JSNum → JSNum → JSNum
  | num a, num b =>
      if b = 0 then (if a > 0 then posInf else if a < 0 then negInf else nan)
      else num (ratDiv a b)
  | num _, posInf => num 0
  | num _, negInf => num 0
  | posInf, num b => if b < 0 then negInf else posInf
  | negInf, num b => if b < 0 then posInf else negInf
  | posInf, posInf => nan
  | posInf, negInf => nan
  | negInf, posInf => nan
  | negInf, negInf => nan
  | nan, _ => nan
  | _, nan => nan

/-- JS `<` (false whenever an operand is `NaN`). -/
def ltb : JSNum → JSNum → Bool
  | num a, num b => a < b
  | num _, posInf => true
  | num _, negInf => false
  | posInf, num _ => false
  | negInf, num _ => true
  | negInf, posInf => true
  | posInf, negInf => false
  | posInf, posInf => false
  | negInf, negInf => false
  | nan, _ => false
  | _, nan => false

/-- JS `<=` (false whenever an operand is `NaN`). -/
def leb : JSNum → JSNum → Bool
  | num a, num b => a ≤ b
  | num _, posInf => true
  | num _, negInf => false
  | posInf, num _ => false
  | negInf, num _ => true
  | negInf, posInf => true
  | posInf, negInf => false
  | posInf, posInf => true
  | negInf, negInf => true
  | nan, _ => false
  | _, nan => false

/-- JS `>=`. -/
def geb (a b : JSNum) : Bool := leb b a

/-- JS `>`. -/
def gtb (a b : JSNum) : Bool := ltb b a

/-- `Math.min` (returns `NaN` if any argument is `NaN`). -/
def jmin : JSNum → JSNum → JSNum
  | nan, _ => nan
  | _, nan => nan
  | a, b => if ltb b a then b else a

/-- `Math.max` (returns `NaN` if any argument is `NaN`). -/
def jmax : JSNum → JSNum → JSNum
  | nan, _ => nan
  | _, nan => nan
  | a, b => if ltb a b then b else a

/-- `Math.abs`. -/
def jabs : JSNum → JSNum
  | num a => num (ratAbs a)
  | nan => nan
  | posInf => posInf
  | negInf => posInf

end JSNum

/-! ## String primitives

The embedded code uses `trim`, `split` and a bracket-removing `replace`.
They are written here on character lists (with a fuel that the entry points
instantiate with the input length, consumed at least one character per
step), so that every concrete instance reduces inside the kernel; the
semantics is that of the JS methods. -/

/-- `string.trim()`: strip whitespace from both ends. -/
def jsTrim (s : String) : String :=
  ⟨((s.data.dropWhile Char.isWhitespace).reverse.dropWhile Char.isWhitespace).reverse⟩

/-- Character-list splitting on a nonempty separator (JS
`string.split(sep)`): scan for the separator, cut, repeat. -/
def splitChars (sep : List Char) : ℕ → List Char → List Char → List (List Char)
  | _, [], acc => [acc.reverse]
  | 0, rest, acc => [acc.reverse ++ rest]
  | fuel + 1, c :: cs, acc =>
    if sep.isPrefixOf (c :: cs) && !sep.isEmpty then
      acc.reverse :: splitChars sep fuel (List.drop sep.length (c :: cs)) []
    else
      splitChars sep fuel cs (c :: acc)

/-- JS `string.split(sep)` for a nonempty string separator. -/
def jsSplit (s sep : String) : List String :=
  (splitChars sep.data s.data.length s.data []).map fun cs => ⟨cs⟩

/-- `text.replace(/\[|\]/g, '')` (TreeView.js:350): remove every square
bracket character. -/
def stripBrackets (s : String) : String :=
  ⟨s.data.filter fun c => !(c == '[' || c == ']')⟩

/-! ## Numeric token parsing (JS `Number.parseInt` / `Number.parseFloat`) -/

/-- Leading decimal digits of a character list, and the rest. -/
def takeDigits : List Char → List Char × List Char
  | [] => ([], [])
  | c :: cs =>
    if c.isDigit then
      let (ds, rest) := takeDigits cs
      (c :: ds, rest)
    else ([], c :: cs)

/-- Value of a list of decimal digits. -/
def digitsToNat (ds : List Char) : ℕ :=
  ds.foldl (fun acc c => acc * 10 + (c.toNat - 48)) 0

/-- Sign prefix of a JS numeric literal. -/
def splitSign : List Char → Bool × List Char
  | '-' :: rest => (true, rest)
  | '+' :: rest => (false, rest)
  | cs => (false, cs)

/-- `Number.parseInt` (base 10): skip whitespace, optional sign, longest
digit prefix; `none` models `NaN`. -/
def parseIntJS (s : String) : Option ℤ :=
  let (neg, cs) := splitSign (jsTrim s).data
  let (ds, _) := takeDigits cs
  if ds.isEmpty then none
  else some ((if neg then -1 else 1) * (digitsToNat ds : ℤ))

/-- `Number.parseFloat`: skip whitespace, optional sign, longest
`digits[.digits]` prefix (exponents are not used by the data files);
`NaN` when no digit is found. -/
def parseFloatJS (s : String) : JSNum :=
  let (neg, cs) := splitSign (jsTrim s).data
  let (ds, rest) := takeDigits cs
  let (fs, ok) := match rest with
    | '.' :: rest2 =>
      let (fs, _) := takeDigits rest2
      (fs, !ds.isEmpty || !fs.isEmpty)
    | _ => ([], !ds.isEmpty)
  if ok then
    let mag : ℚ := ratAdd (mkRat (Int.ofNat (digitsToNat ds)) 1)
      (mkRat (Int.ofNat (digitsToNat fs)) (Nat.pow 10 fs.length))
    .num (if neg then ratNeg mag else mag)
  else .nan

/-! ## JS comparison semantics on parsed integer fields (`NaN = none`) -/

/-- JS `===` on two numbers of which either may be `NaN`. -/
def jsEqI : Option ℤ → Option ℤ → Bool
  | some a, some b => a == b
  | _, _ => false

/-- JS `<` on two numbers of which either may be `NaN`. -/
def jsLtI : Option ℤ → Option ℤ → Bool
  | some a, some b => a < b
  | _, _ => false

/-- JS `x + 1` with `NaN` propagation. -/
def jsAddOneI : Option ℤ → Option ℤ
  | some a => some (a + 1)
  | none => none

/-- JS `array.slice(0, x)`: `ToInteger(NaN) = 0`; a negative bound counts
from the end of the array. -/
def jsSliceZero (x : Option ℤ) (l : List α) : List α :=
  match x with
  | none => []
  | some z => if 0 ≤ z then l.take z.toNat else l.take (l.length - (-z).toNat)

/-! ## Node model

`TreeNodes.js` is imported by both source modules but is not part of the
repository snapshot, so the node model is modelled from the specification
(§3 DATA MODEL).  Nodes are kept arena-style, following the spec's design
note: nodes are indexed by position in the parsed record list and
`parent`/`children` hold indices. -/

/-- A tree node (both variants share one carrier, discriminated by `isLeaf`).
Modelled from the spec: `TreeNodes.js` is not under `src/`; the spec gives
`depth` (integer, first field of a record), `samples`, `impurity` (floats),
and for leaves `leafId`, `noClasses` (integers), `classes` (per-class counts)
and `bestClass` (highest count, first-encountered tie-break).  `children`
and `parent` are filled in by the parser; `selectedPathElement` defaults to
false. -/
structure PNode where
  isLeaf : Bool
  depth : Option ℤ
  samples : JSNum
  impurity : JSNum
  impurityDrop : JSNum
  leafId : Option ℤ
  noClasses : Option ℤ
  classes : List JSNum
  bestClass : Option ℕ
  children : List ℕ
  parent : Option ℕ
  selectedPathElement : Bool
  deriving DecidableEq, Repr, Inhabited

/-- Index of the class with the highest count, first-encountered order
breaking ties.  Modelled from the spec (§3: `bestClass` — "reference to the
class with the highest count; ties broken by first-encountered order"). -/
def bestClassIdx (cls : List JSNum) : Option ℕ :=
  (List.range cls.length).foldl
    (fun acc i =>
      match acc with
      | none => some i
      | some j => if JSNum.gtb (cls.getD i .nan) (cls.getD j .nan) then some i else some j)
    none

/-- The `InternalNode` constructor.  Modelled from the spec: a record begins
with `depth`; `samples`, `impurity` and the split's `impurityDrop` follow;
the remaining fields are opaque pass-through data. -/
def mkInternalNode (fields : List String) : PNode where
  isLeaf := false
  depth := parseIntJS (fields.getD 0 "")
  samples := parseFloatJS (fields.getD 1 "")
  impurity := parseFloatJS (fields.getD 2 "")
  impurityDrop := parseFloatJS (fields.getD 3 "")
  leafId := none
  noClasses := none
  classes := []
  bestClass := none
  children := []
  parent := none
  selectedPathElement := false

/-- The `LeafNode` constructor.  Modelled from the spec: `depth`, `samples`,
`impurity`, then `leafId`, `noClasses` and the comma-separated per-class
counts. -/
def mkLeafNode (fields : List String) : PNode :=
  let classes := (jsSplit (fields.getD 5 "") ",").map parseFloatJS
  { isLeaf := true
    depth := parseIntJS (fields.getD 0 "")
    samples := parseFloatJS (fields.getD 1 "")
    impurity := parseFloatJS (fields.getD 2 "")
    impurityDrop := JSNum.nan
    leafId := parseIntJS (fields.getD 3 "")
    noClasses := parseIntJS (fields.getD 4 "")
    classes := classes
    bestClass := bestClassIdx classes
    children := []
    parent := none
    selectedPathElement := false }

/-! ## Statistics parser (`parseStatisticsContent`, TreeView.js:361-396) -/

/-- Sequential map that propagates the first thrown error (the behaviour
of a JS `array.map` whose callback can throw). -/
def mapExcept (f : α → Except JSErr β) : List α → Except JSErr (List β)
  | [] => .ok []
  | x :: xs =>
    match f x with
    | .error e => .error e
    | .ok y =>
      match mapExcept f xs with
      | .error e => .error e
      | .ok ys => .ok (y :: ys)

/-- One record line: 11 fields construct an `InternalNode`, 6 fields a
`LeafNode`, anything else throws "Unknown tree file format"
(TreeView.js:363-371). -/
def lineToNode (line : String) : Except JSErr PNode :=
  let fields := jsSplit line ";"
  if fields.length = 11 then .ok (mkInternalNode fields)
  else if fields.length = 6 then .ok (mkLeafNode fields)
  else .error .formatError

/-- `latest.add(node)`: appends `node` as the next child of `latest` and sets
`node.parent` (modelled from the spec, §4.1: "attach `n` as the next child
... set `n.parent` to that top").  Calling `add` on a `LeafNode` — which
never gains children (spec §3) and has no `add` method — or on `undefined`
is a `TypeError`. -/
def addChild (a : List PNode) (p c : ℕ) : Except JSErr (List PNode) :=
  match a.get? p with
  | none => .error .typeError
  | some pn =>
    if pn.isLeaf then .error .typeError
    else
      let a1 := a.set p { pn with children := pn.children ++ [c] }
      match a1.get? c with
      | none => .ok a1
      | some cn => .ok (a1.set c { cn with parent := some p })

/-- The stack-based reconstruction loop of `parseStatisticsContent`
(TreeView.js:376-393).  `a` is the arena of all parsed records in file
order; `stack` holds indices with the top at the end, exactly as the JS
array is used.  A record whose depth is neither `latest.depth + 1`,
`latest.depth` nor below throws "Malformed statistics content". -/
def parseLoop (a : List PNode) (stack : List ℕ) : List ℕ → Except JSErr (List PNode)
  | [] => .ok a
  | i :: rest =>
    match stack.getLast? with
    | none => .error .typeError
    | some latest0 =>
      let nd := ((a.getD i default).depth)
      let ld := ((a.getD latest0 default).depth)
      let stack? : Option (List ℕ) :=
        if jsEqI nd (jsAddOneI ld) then some stack
        else if jsEqI nd ld then some stack.dropLast
        else if jsLtI nd ld then some (jsSliceZero nd stack)
        else none
      match stack? with
      | none => .error .structuralError
      | some stack1 =>
        match stack1.getLast? with
        | none => .error .typeError
        | some latest1 =>
          match addChild a latest1 i with
          | .error e => .error e
          | .ok a' => parseLoop a' (stack1 ++ [i]) rest

/-- `parseStatisticsContent(text)` (TreeView.js:361-396): drop the two header
lines, build one node per line, then link them with the stack loop.  The
result is the arena of nodes; the root (`baseNode`) is index 0, and an empty
arena models the `undefined` returned for an input without records. -/
def parseStatisticsContent (text : String) : Except JSErr (List PNode) :=
  let lines := (jsSplit (jsTrim text) "\n").drop 2
  match mapExcept lineToNode lines with
  | .error e => .error e
  | .ok nodes =>
    match nodes with
    | [] => .ok []
    | _ => parseLoop nodes [0] (List.range' 1 (nodes.length - 1))

/-! ## Forest assembler (`createForest`, TreeView.js:322-354) -/

/-- Raw content of the input files (`readDataFolder`'s result shape). -/
structure RawData where
  forestFileContent : String
  treeFileContents : List String
  deriving DecidableEq, Repr

/-- One tree of the forest: its out-of-bag error (`undefined`, i.e. `none`,
when the OOB list is shorter than the tree list) and the parsed arena whose
index 0 is `baseNode`. -/
structure TreeRec where
  oobError : Option JSNum
  baseNode : List PNode
  deriving DecidableEq, Repr

/-- The assembled forest (TreeView.js:336-341). -/
structure Forest where
  error : JSNum
  totalSamples : JSNum
  correlationMatrix : List (List JSNum)
  trees : List TreeRec
  deriving DecidableEq, Repr

/-- `parseCorrelationMatrix` (TreeView.js:349-354): strip `[`/`]`, split rows
on `";\n"`, values on `","`, parse each as float. -/
def parseCorrelationMatrix (text : String) : List (List JSNum) :=
  let text := stripBrackets text
  (jsSplit text ";\n").map fun line => (jsSplit line ",").map parseFloatJS

/-- `createForest(rawData)` (TreeView.js:322-342).  No numeric validation is
performed: unparseable tokens become `NaN`; a missing OOB entry is
`undefined`; `trees[0].baseNode.samples` throws a `TypeError` when there are
no trees (or when the first tree's root is `undefined`). -/
def createForest (rawData : RawData) : Except JSErr Forest :=
  let forestDataParts := jsSplit rawData.forestFileContent "\n\n"
  let correlationMatrix := parseCorrelationMatrix (forestDataParts.getD 0 "")
  match forestDataParts.get? 1 with
  | none => .error .typeError
  | some oobPart =>
    let treeOobErrors := (jsSplit oobPart "\n").map parseFloatJS
    let error := match forestDataParts.get? 2 with
      | none => JSNum.nan
      | some s => parseFloatJS s
    match (mapExcept (fun p =>
        (parseStatisticsContent p.2).map fun arena =>
          TreeRec.mk (treeOobErrors.get? p.1) arena) rawData.treeFileContents.enum) with
    | .error e => .error e
    | .ok trees =>
      match trees.get? 0 with
      | none => .error .typeError
      | some t0 =>
        match t0.baseNode.get? 0 with
        | none => .error .typeError
        | some root =>
          .ok { error := error
                totalSamples := root.samples
                correlationMatrix := correlationMatrix
                trees := trees }

/-! ## Layout trees

The layout engines traverse an already-parsed tree.  For them the tree is
represented inductively; leaves and internal nodes carry the data fields the
engines read.  (`PTree.childList` models the `children` array, which for a
`LeafNode` is empty.) -/

/-- Data of a parsed `LeafNode` as seen by the layout engines. -/
structure LeafInfo where
  samples : JSNum
  impurity : JSNum
  leafId : Option ℤ
  noClasses : Option ℤ
  classes : List JSNum
  bestClass : Option ℕ
  selected : Bool
  deriving DecidableEq, Repr

/-- Data of a parsed `InternalNode` as seen by the layout engines. -/
structure IntInfo where
  samples : JSNum
  impurity : JSNum
  impurityDrop : JSNum
  selected : Bool
  deriving DecidableEq, Repr

/-- A parsed tree.  An `InternalNode` may carry any number of children here,
because the parser does not enforce an arity bound; the engines read
`children[0]` and `children[1]` only. -/
inductive PTree where
  | leaf (li : LeafInfo)
  | node (ii : IntInfo) (children : List PTree)

/-- `node.samples`. -/
def PTree.samples : PTree → JSNum
  | .leaf li => li.samples
  | .node ii _ => ii.samples

/-- `node.impurity`. -/
def PTree.impurity : PTree → JSNum
  | .leaf li => li.impurity
  | .node ii _ => ii.impurity

/-- `node.children` (a `LeafNode` has an empty children array). -/
def PTree.childList : PTree → List PTree
  | .leaf _ => []
  | .node _ cs => cs

mutual

/-- Number of nodes of a tree (recursion measure). -/
def PTree.count : PTree → ℕ
  | .leaf _ => 1
  | .node _ cs => 1 + PTree.countList cs

/-- Number of nodes of a list of trees. -/
def PTree.countList : List PTree → ℕ
  | [] => 0
  | t :: ts => PTree.count t + PTree.countList ts

end

/-! ## TreeView layout engine (`TreeView.generateTreeElements`, TreeView.js:88-160) -/

/-- The geometry fields `addBranchInformation` (TreeView.js:286-296) assigns
onto a node: `x2 = x + length*sin(angle)`, `y2 = y - length*cos(angle)`.
`sn`/`cn` are `Math.sin`/`Math.cos`, passed as parameters of the embedding
(no claim depends on their values). -/
structure Geom where
  x : JSNum
  y : JSNum
  x2 : JSNum
  y2 : JSNum
  angle : JSNum
  length : JSNum
  depth : ℕ
  deriving DecidableEq, Repr

/-- `addBranchInformation(treeNode, x, y, angle, length, depth)`
(TreeView.js:286-296). -/
def addBranchInformation (sn cn : JSNum → JSNum) (x y angle length : JSNum) (depth : ℕ) : Geom where
  x := x
  y := y
  x2 := x.add (length.mul (sn angle))
  y2 := y.sub (length.mul (cn angle))
  angle := angle
  length := length
  depth := depth

/-- A branch record: TreeView pushes the annotated node object itself
(`branches.push(node)`), i.e. the node together with its geometry. -/
structure BranchRec where
  node : PTree
  geom : Geom

/-- A leaf record (TreeView.js:111-122). -/
structure LeafRec where
  x : JSNum
  y : JSNum
  impurity : JSNum
  samples : JSNum
  leafId : Option ℤ
  depth : ℕ
  noClasses : Option ℤ
  classes : List JSNum
  bestClass : Option ℕ
  selectedPathElement : Bool
  deriving DecidableEq, Repr

/-- A bunch record (TreeView.js:101-106): terminus point, the truncated
node (`baseNode`) with its geometry, and its aggregate `samples`. -/
structure BunchRec where
  x : JSNum
  y : JSNum
  node : PTree
  geom : Geom
  samples : JSNum

/-- The recursive `branch` closure of `TreeView.generateTreeElements`
(TreeView.js:96-141), returning this subtree's records in traversal order:
the node is pushed to `branches` first; a node at depth `maxDepth - 1`
becomes a bunch; a `LeafNode` becomes a leaf record; otherwise the formulas
of lines 129-133 lay out `children[0]` and `children[1]`.  `maxDepth = 0`
stands for the `+Infinity` default (the cutoff `depth === maxDepth - 1`
never fires).  Reading `.samples` of a missing child is a `TypeError`. -/
def branchTV (sn cn : JSNum → JSNum) (maxDepth : ℕ) (maxSF minB : JSNum) :
    PTree → Geom → Except JSErr (List BranchRec × List LeafRec × List BunchRec)
  | .leaf li, g =>
    if g.depth + 1 = maxDepth then
      .ok ([⟨.leaf li, g⟩], [], [⟨g.x2, g.y2, .leaf li, g, li.samples⟩])
    else
      .ok ([⟨.leaf li, g⟩],
           [⟨g.x2, g.y2, li.impurity, li.samples, li.leafId, g.depth, li.noClasses,
             li.classes, li.bestClass, li.selected⟩], [])
  | .node ii cs, g =>
    if g.depth + 1 = maxDepth then
      .ok ([⟨.node ii cs, g⟩], [], [⟨g.x2, g.y2, .node ii cs, g, ii.samples⟩])
    else
      match cs with
      | c0 :: c1 :: rest =>
        let ratio1 := c0.samples.div ii.samples
        let ratio2 := c1.samples.div ii.samples
        let length1 := ((ratio1.jmin maxSF).mul g.length).jmax minB
        let length2 := ((ratio2.jmin maxSF).mul g.length).jmax minB
        let angle1 := g.angle.sub (ratio1.sub 1).jabs
        let angle2 := g.angle.add (ratio2.sub 1).jabs
        match branchTV sn cn maxDepth maxSF minB c0
            (addBranchInformation sn cn g.x2 g.y2 angle1 length1 (g.depth + 1)) with
        | .error e => .error e
        | .ok (b1, l1, u1) =>
          match branchTV sn cn maxDepth maxSF minB c1
              (addBranchInformation sn cn g.x2 g.y2 angle2 length2 (g.depth + 1)) with
          | .error e => .error e
          | .ok (b2, l2, u2) =>
            .ok (⟨.node ii (c0 :: c1 :: rest), g⟩ :: (b1 ++ b2), l1 ++ l2, u1 ++ u2)
      | _ => .error .typeError

/-- Stable insertion for the descending-by-`samples` sort
(`sortBySamples`, TreeView.js:151-155): an element moves ahead of another
exactly when its `samples` compare strictly greater. -/
def insertBySamples (key : α → JSNum) (r : α) : List α → List α
  | [] => [r]
  | x :: xs =>
    if JSNum.gtb (key x) (key r) then x :: insertBySamples key r xs
    else r :: x :: xs

/-- `list.sort(sortBySamples)` — stable, descending by `samples`. -/
def sortBySamplesDesc (key : α → JSNum) (l : List α) : List α :=
  l.foldr (insertBySamples key) []

/-- The layout output `{branches, leafs, bunches}`. -/
structure LayoutOut where
  branches : List BranchRec
  leafs : List LeafRec
  bunches : List BunchRec

/-- `TreeView.generateTreeElements(tree, totalSamples, maxDepth, width,
height, trunkLength, pathLeafID, maxShorteningFactor = 0.9,
minBranchLength = 4)` (TreeView.js:88-160).  The root is anchored at
`(width/2, height)` with angle 0 and length `trunkLength`; `leafs` and
`bunches` are sorted descending by samples.  (`totalSamples` and
`pathLeafID` are accepted but unused: the call to `markPathElements` at
line 146 is commented out.) -/
def generateTreeElementsTV (sn cn : JSNum → JSNum) (totalSamples : JSNum) (maxDepth : ℕ)
    (width height trunkLength maxSF minB : JSNum) (tree : PTree) :
    Except JSErr LayoutOut :=
  let _ := totalSamples
  let baseGeom := addBranchInformation sn cn (width.div 2) height 0 trunkLength 0
  match branchTV sn cn maxDepth maxSF minB tree baseGeom with
  | .error e => .error e
  | .ok (bs, ls, us) =>
    .ok ⟨bs, sortBySamplesDesc LeafRec.samples ls, sortBySamplesDesc BunchRec.samples us⟩

/-! ## draw.mjs layout engine (`generateTreeElements`, draw.mjs:53-113) -/

/-- The two tree construction strategies of `branchStrategy`
(draw.mjs:116-146). -/
inductive StrategyKind where
  | simple
  | up
  deriving DecidableEq, Repr

/-- `branchStrategy(type)(node)` (draw.mjs:116-146): given the node's
`samples`, its annotated `angle` and its `children` array, return
`{leftChild, rightChild}` (either may be `undefined`).  `UP` reads
`node.children[0].samples`, a `TypeError` on a childless node. -/
def branchStrategy (kind : StrategyKind) (samples angle : JSNum) (cs : List PTree) :
    Except JSErr (Option PTree × Option PTree) :=
  match kind with
  | .simple => .ok (cs.get? 0, cs.get? 1)
  | .up =>
    match cs.get? 0 with
    | none => .error .typeError
    | some c0 =>
      let firstBiggerThanSecond := (c0.samples.div samples).geb (.num (mkRat 1 2))
      let leftBound := angle.ltb 0
      if firstBiggerThanSecond && leftBound then .ok (cs.get? 1, some c0)
      else if !firstBiggerThanSecond && leftBound then .ok (some c0, cs.get? 1)
      else if firstBiggerThanSecond && !leftBound then .ok (some c0, cs.get? 1)
      else .ok (cs.get? 1, some c0)

/-- The geometry-and-index fields `addBranchInformation` assigns in draw.mjs
(lines 58-70); `index` is `branches.length` at the call and `parent` the
parent's index. -/
structure DGeom where
  index : ℕ
  x : JSNum
  y : JSNum
  x2 : JSNum
  y2 : JSNum
  angle : JSNum
  length : JSNum
  depth : ℕ
  parent : Option ℕ
  deriving DecidableEq, Repr

/-- draw.mjs `addBranchInformation(treeNode, index, x, y, angle, length,
depth, parent)`. -/
def addBranchInformationD (sn cn : JSNum → JSNum) (index : ℕ) (x y angle length : JSNum)
    (depth : ℕ) (parent : Option ℕ) : DGeom where
  index := index
  x := x
  y := y
  x2 := x.add (length.mul (sn angle))
  y2 := y.sub (length.mul (cn angle))
  angle := angle
  length := length
  depth := depth
  parent := parent

/-- A draw.mjs branch record: `removeChildReferences` copies the annotated
node without its `children` array (draw.mjs:72-76, 80). -/
structure DBranchRec where
  samples : JSNum
  impurity : JSNum
  geom : DGeom
  deriving DecidableEq, Repr

/-- A draw.mjs leaf record (draw.mjs:83-88): terminus point, impurity and
samples only. -/
structure DLeafRec where
  x : JSNum
  y : JSNum
  impurity : JSNum
  samples : JSNum
  deriving DecidableEq, Repr

/-- The recursive `branch` closure of draw.mjs `generateTreeElements`
(lines 79-106), fuel-bounded (`rangeError` models JS stack exhaustion and
is unreachable from the entry point below).  Recursion stops — pushing a
leaf record — when `children.length === 0` or `depth === maxDepth - 1`
(`maxDepth = 0` again stands for the `+Infinity` default); otherwise the
strategy picks `leftChild`/`rightChild` and the additive length formula
`4 + childSamples/totalSamples*100` (lines 94-95) lays them out. -/
def branchD (sn cn : JSNum → JSNum) (kind : StrategyKind) (totalSamples : JSNum)
    (maxDepth : ℕ) : ℕ → PTree → DGeom → Except JSErr (List DBranchRec × List DLeafRec)
  | 0, _, _ => .error .rangeError
  | fuel + 1, t, g =>
    let selfRec : DBranchRec := ⟨t.samples, t.impurity, g⟩
    if t.childList.length = 0 || g.depth + 1 = maxDepth then
      .ok ([selfRec], [⟨g.x2, g.y2, t.impurity, t.samples⟩])
    else
      match branchStrategy kind t.samples g.angle t.childList with
      | .error e => .error e
      | .ok (lc?, rc?) =>
        match lc? with
        | none => .error .typeError
        | some lc =>
          match rc? with
          | none => .error .typeError
          | some rc =>
            let length1 := (JSNum.num 4).add ((lc.samples.div totalSamples).mul 100)
            let length2 := (JSNum.num 4).add ((rc.samples.div totalSamples).mul 100)
            let angle1 := g.angle.sub ((lc.samples.div t.samples).sub 1).jabs
            let angle2 := g.angle.add ((rc.samples.div t.samples).sub 1).jabs
            match branchD sn cn kind totalSamples maxDepth fuel lc
                (addBranchInformationD sn cn (g.index + 1) g.x2 g.y2 angle1 length1
                  (g.depth + 1) (some g.index)) with
            | .error e => .error e
            | .ok (b1, l1) =>
              match branchD sn cn kind totalSamples maxDepth fuel rc
                  (addBranchInformationD sn cn (g.index + 1 + b1.length) g.x2 g.y2 angle2
                    length2 (g.depth + 1) (some g.index)) with
              | .error e => .error e
              | .ok (b2, l2) => .ok (selfRec :: (b1 ++ b2), l1 ++ l2)

/-- draw.mjs `generateTreeElements(tree, totalSamples, lengthDelta, maxDepth,
strategy)` (lines 53-113).  The root is anchored at `(400, 800)`, angle 0,
length 100, index 0, no parent (line 109).  `PTree.count tree` bounds the
recursion depth, so the fuel never runs out. -/
def generateTreeElementsDm (sn cn : JSNum → JSNum) (kind : StrategyKind)
    (totalSamples : JSNum) (maxDepth : ℕ) (tree : PTree) :
    Except JSErr (List DBranchRec × List DLeafRec) :=
  branchD sn cn kind totalSamples maxDepth (PTree.count tree + 1) tree
    (addBranchInformationD sn cn 0 400 800 0 100 0 none)

/-! ## Path highlighter (`TreeView.markPathElements`, TreeView.js:182-203) -/

/-- `TreeView.walkAndApply(node, fn)` (TreeView.js:167-173) with the reset
function of line 184-186: set `selectedPathElement` to false and, for an
`InternalNode`, recurse into `children[0]` and `children[1]` (either may be
`undefined`, and applying `fn` to `undefined` is a `TypeError`).  The fuel
models the JS call stack; it is never exhausted on well-formed arenas. -/
def walkReset (a : List PNode) : ℕ → Option ℕ → Except JSErr (List PNode)
  | 0, _ => .error .rangeError
  | _ + 1, none => .error .typeError
  | fuel + 1, some i =>
    match a.get? i with
    | none => .error .typeError
    | some nd =>
      let a1 := a.set i { nd with selectedPathElement := false }
      if nd.isLeaf then .ok a1
      else
        match walkReset a1 fuel (nd.children.get? 0) with
        | .error e => .error e
        | .ok a2 => walkReset a2 fuel (nd.children.get? 1)

/-- `walkUpAndApply(node, fn)` (TreeView.js:191-196) with
`fn = node => node.selectedPathElement = true` (lines 198-202): mark the
node, then follow the `parent` reference until it is absent. -/
def walkUpMark (a : List PNode) : ℕ → ℕ → Except JSErr (List PNode)
  | 0, _ => .error .rangeError
  | fuel + 1, i =>
    match a.get? i with
    | none => .error .typeError
    | some nd =>
      let a1 := a.set i { nd with selectedPathElement := true }
      match nd.parent with
      | some p => walkUpMark a1 fuel p
      | none => .ok a1

/-- Modelled from the spec: `TreeView.getLeafNodes` is called at
TreeView.js:188 but is missing from the repository snapshot; per spec §4.4
the highlighter considers "every leaf whose `leafId` is in the target set",
so this returns the arena's leaf nodes (in index order, which does not
affect the resulting flags). -/
def getLeafNodes (a : List PNode) : List ℕ :=
  (List.range a.length).filter fun i => (a.getD i default).isLeaf

/-- Whether a node's `leafId` is included in the target list
(`leafIds.includes(leaf.leafId)`, TreeView.js:189). -/
def leafIdSelected (leafIds : List ℤ) (nd : PNode) : Bool :=
  match nd.leafId with
  | some v => leafIds.contains v
  | none => false

/-- `TreeView.markPathElements(leafIds, tree)` (TreeView.js:182-203) on an
arena rooted at index 0: reset all reachable flags, collect the leaves with
a selected `leafId`, then walk up from each, marking the whole path. -/
def markPathElements (leafIds : List ℤ) (a : List PNode) : Except JSErr (List PNode) :=
  match walkReset a (a.length + 1) (some 0) with
  | .error e => .error e
  | .ok a1 =>
    let leafs := (getLeafNodes a1).filter fun i => leafIdSelected leafIds (a1.getD i default)
    leafs.foldlM (fun acc i => walkUpMark acc (acc.length + 1) i) a1

/-- The parent chain of a node (the node itself, then `parent` hops). -/
def parentChain (a : List PNode) : ℕ → ℕ → List ℕ
  | 0, _ => []
  | fuel + 1, i =>
    i :: (match (a.getD i default).parent with
          | some p => parentChain a fuel p
          | none => [])

/-- Reference description of the highlighter's final flags: index `i` is
marked exactly when some leaf whose `leafId` is selected has `i` on its
root-to-leaf path (its parent chain). -/
def markedB (leafIds : List ℤ) (a : List PNode) (i : ℕ) : Bool :=
  (getLeafNodes a).any fun l =>
    leafIdSelected leafIds (a.getD l default) &&
    (parentChain a (a.length + 1) l).contains i

/-- Erase the highlight flags: the structural view of an arena (everything
the walks read), with `selectedPathElement` normalised to `false`. -/
def clearFlags (a : List PNode) : List PNode :=
  a.map fun nd => { nd with selectedPathElement := false }

/-- The set of indices the reset walk visits starting at `i`: the subtree
of `i` through `children[0]` and `children[1]`. -/
def subtreeOf (a : List PNode) : ℕ → ℕ → List ℕ
  | 0, _ => []
  | fuel + 1, i =>
    match a.get? i with
    | none => []
    | some nd =>
      if nd.isLeaf then [i]
      else i :: ((match nd.children.get? 0 with
                  | some c => subtreeOf a fuel c
                  | none => []) ++
                 (match nd.children.get? 1 with
                  | some c => subtreeOf a fuel c
                  | none => []))

/-! ## Well-formedness checkers (hypotheses of the universal theorems) -/

/-- Arena well-formedness with a configurable arity bound on internal nodes
(`exact2 = true`: exactly two children; otherwise at most two): the arena is
nonempty, node 0 is the parentless root, every child index is in range,
greater than its parent and linked back via `parent`, every non-root node is
its parent's child, and leaves are childless.  Parsed trees whose records
satisfy the binary-arity discipline have this shape. -/
def wfArenaWith (exact2 : Bool) (a : List PNode) : Bool :=
  decide (0 < a.length) &&
  ((a.getD 0 default).parent == none) &&
  (List.range a.length).all fun j =>
    let nd := a.getD j default
    nd.children.all (fun c =>
      decide (j < c) && decide (c < a.length) && ((a.getD c default).parent == some j)) &&
    (if nd.isLeaf then nd.children.isEmpty
     else if exact2 then nd.children.length == 2 else decide (nd.children.length ≤ 2)) &&
    (decide (j = 0) ||
      match nd.parent with
      | some p => decide (p < j) && ((a.getD p default).children.contains j)
      | none => false)

/-- Arena well-formedness, binary case. -/
def wfArena (a : List PNode) : Bool := wfArenaWith true a

/-- Whether some internal node of the arena has exactly one child. -/
def arenaHasUnary (a : List PNode) : Bool :=
  a.any fun nd => !nd.isLeaf && nd.children.length == 1

mutual

/-- Every internal node has exactly two children (a well-formed binary
tree, the shape the layout engines assume). -/
def PTree.wfB : PTree → Bool
  | .leaf _ => true
  | .node _ cs => (cs.length == 2) && PTree.wfBList cs

/-- `PTree.wfB` on a list of subtrees. -/
def PTree.wfBList : List PTree → Bool
  | [] => true
  | t :: ts => PTree.wfB t && PTree.wfBList ts

end

mutual

/-- Every internal node has at most two children. -/
def PTree.le2B : PTree → Bool
  | .leaf _ => true
  | .node _ cs => decide (cs.length ≤ 2) && PTree.le2BList cs

/-- `PTree.le2B` on a list of subtrees. -/
def PTree.le2BList : List PTree → Bool
  | [] => true
  | t :: ts => PTree.le2B t && PTree.le2BList ts

end

mutual

/-- Whether some internal node has exactly one child. -/
def PTree.hasUnaryB : PTree → Bool
  | .leaf _ => false
  | .node _ cs => (cs.length == 1) || PTree.hasUnaryBList cs

/-- `PTree.hasUnaryB` on a list of subtrees. -/
def PTree.hasUnaryBList : List PTree → Bool
  | [] => false
  | t :: ts => PTree.hasUnaryB t || PTree.hasUnaryBList ts

end

mutual

/-- Every node's `samples` is a positive finite number (the spec's data
model: samples is a positive integer count). -/
def PTree.posSamplesB : PTree → Bool
  | .leaf li => match li.samples with | .num q => decide (0 < q) | _ => false
  | .node ii cs =>
    (match ii.samples with | .num q => decide (0 < q) | _ => false) &&
    PTree.posSamplesBList cs

/-- `PTree.posSamplesB` on a list of subtrees. -/
def PTree.posSamplesBList : List PTree → Bool
  | [] => true
  | t :: ts => PTree.posSamplesB t && PTree.posSamplesBList ts

end

/-! ## Reference reconstruction (spec §4.1/§8) and depth simulation -/

/-- The pre-order depth-first reference reconstruction, written from the
spec's words rather than the source: in a pre-order listing of a tree with
depth annotations, the parent of record `i` is the nearest preceding record
whose depth is one less; `none` when no such record exists. -/
def refParent (ds : List ℤ) (i : ℕ) : Option ℕ :=
  (List.range i).reverse.find? fun j => ds.get? j = (ds.get? i).map (· - 1)

/-- Children of record `j` under the reference reconstruction, in record
order. -/
def refChildren (ds : List ℤ) (j : ℕ) : List ℕ :=
  (List.range ds.length).filter fun i => refParent ds i == some j

/-- Parsed depths of an arena; `none` entries are depth fields that did not
parse as integers. -/
def depthsOf (a : List PNode) : List (Option ℤ) := a.map PNode.depth

/-- Depth-and-kind abstraction of the reconstruction loop: the control flow
of `parseLoop` depends only on each record's parsed depth and on whether
each stack entry is a leaf.  Runs the same stack discipline on
`(depth, isLeaf)` pairs and reports the first failure, if any. -/
def depthSim (stack : List (Option ℤ × Bool)) : List (Option ℤ × Bool) → Option JSErr
  | [] => none
  | (nd, lf) :: rest =>
    match stack.getLast? with
    | none => some .typeError
    | some (ld, _) =>
      let stack? : Option (List (Option ℤ × Bool)) :=
        if jsEqI nd (jsAddOneI ld) then some stack
        else if jsEqI nd ld then some stack.dropLast
        else if jsLtI nd ld then some (jsSliceZero nd stack)
        else none
      match stack? with
      | none => some .structuralError
      | some stack1 =>
        match stack1.getLast? with
        | none => some .typeError
        | some (_, lf1) =>
          if lf1 then some .typeError
          else depthSim (stack1 ++ [(nd, lf)]) rest

/-- The depth-and-kind view of a node. -/
def nodeView (nd : PNode) : Option ℤ × Bool := (nd.depth, nd.isLeaf)

/-- The depth-and-kind view of the arena entry at an index. -/
def viewAt (a : List PNode) (s : ℕ) : Option ℤ × Bool := nodeView (a.getD s default)

/-- Number of stopping nodes ("truncated subtrees") the TreeView layout
recursion reaches: one per node that is a leaf or sits at the cutoff depth
`maxDepth - 1`; below such a node nothing is counted. -/
def countStops (maxDepth : ℕ) : ℕ → PTree → ℕ
  | _, .leaf _ => 1
  | d, .node _ cs =>
    if d + 1 = maxDepth then 1
    else
      match cs with
      | c0 :: c1 :: _ => countStops maxDepth (d + 1) c0 + countStops maxDepth (d + 1) c1
      | _ => 0

/-- View of a parsed arena node as a layout tree, used to connect the parser
to the layout engines at concrete inputs. -/
def arenaToPTree (a : List PNode) : ℕ → ℕ → Option PTree
  | 0, _ => none
  | fuel + 1, i =>
    match a.get? i with
    | none => none
    | some nd =>
      if nd.isLeaf then
        some (.leaf ⟨nd.samples, nd.impurity, nd.leafId, nd.noClasses, nd.classes,
                     nd.bestClass, nd.selectedPathElement⟩)
      else
        match nd.children.mapM (arenaToPTree a fuel) with
        | none => none
        | some cs =>
          some (.node ⟨nd.samples, nd.impurity, nd.impurityDrop, nd.selectedPathElement⟩ cs)

/-! ## Concrete example data -/

/-- A leaf node with 6 samples (example data). -/
def exLeafA : LeafInfo := ⟨.num 6, .num 0, some 0, some 1, [.num 6], some 0, false⟩

/-- A leaf node with 4 samples (example data). -/
def exLeafB : LeafInfo := ⟨.num 4, .num 0, some 1, some 1, [.num 4], some 0, false⟩

/-- A well-formed three-record tree file: an internal root (11 fields,
depth 0, 100 samples) and two leaves (6 fields, depth 1, 60 and 40
samples). -/
def exTreeText : String :=
  "h1\nh2\n0;100;0.5;a;b;c;d;e;f;g;h\n1;60;0.2;0;2;40,20\n1;40;0.3;1;2;10,30"

/-- Forest input whose OOB block contains the unparseable token "abc" and
two OOB entries for a single tree. -/
def exForestBad : RawData :=
  ⟨"[1.0,0.5;\n0.5,1.0]\n\nabc\n0.77\n\n0.25", [exTreeText]⟩

/-- Tree file with depth sequence `[0,1,1,1]`: three sibling leaf records
at depth 1. -/
def exTreeTriple : String :=
  "h1\nh2\n0;100;0.5;a;b;c;d;e;f;g;h\n1;60;0.2;0;2;40,20\n1;30;0.3;1;2;10,20\n1;10;0.3;2;2;5,5"

/-- Tree file with depth sequence `[5,6,5]` (first record's depth is not
0). -/
def exTreeFive : String :=
  "h1\nh2\n5;100;0.5;a;b;c;d;e;f;g;h\n6;60;0.5;a;b;c;d;e;f;g;h\n5;40;0.3;1;2;10,30"

/-- Tree file with depth sequence `[0,1,3]` (a jump of +2). -/
def exTreeJump : String :=
  "h1\nh2\n0;100;0.5;a;b;c;d;e;f;g;h\n1;60;0.2;0;2;40,20\n3;40;0.3;1;2;10,30"

/-- Tree file whose third record has 7 fields. -/
def exTreeSeven : String := "h1\nh2\n0;100;0.5;a;b;c;d;e;f;g;h\n1;60;0.2;0;2;40,20\n1;2;3;4;5;6;7"

/-- Tree file with depth sequence `[0,1,0]` (a second depth-0 record). -/
def exTreeZero : String :=
  "h1\nh2\n0;100;0.5;a;b;c;d;e;f;g;h\n1;60;0.2;0;2;40,20\n0;40;0.3;1;2;10,30"

/-- Tree file with depth sequence `[0,1,1,1,2]`: the root's third child is
an internal record with exactly one child. -/
def exTreeHidden : String :=
  "h1\nh2\n0;100;0.5;a;b;c;d;e;f;g;h\n1;30;0.2;0;2;10,20\n1;30;0.3;1;2;10,20\n1;40;0.4;a;b;c;d;e;f;g;h\n2;40;0.3;2;2;20,20"

/-- Tree file with the spec's §8 depth sequence `[0,1,2,2,1,2,3,3]`. -/
def exTreePre : String :=
  "h1\nh2\n0;100;0.5;a;b;c;d;e;f;g;h\n1;60;0.5;a;b;c;d;e;f;g;h\n2;30;0.2;0;2;10,20\n2;30;0.2;1;2;10,20\n1;40;0.5;a;b;c;d;e;f;g;h\n2;20;0.5;a;b;c;d;e;f;g;h\n3;10;0.2;2;2;5,5\n3;10;0.2;3;2;5,5"

/-- Tree file with depth sequence `[0,1]`: an internal root with a single
child. -/
def exTreeTwo : String := "h1\nh2\n0;100;0.5;a;b;c;d;e;f;g;h\n1;60;0.2;0;2;40,20"

/-- The arena `parseStatisticsContent exTreeText` produces: the root linked
to its two leaves. -/
def exArena3 : List PNode :=
  [{ mkInternalNode (jsSplit "0;100;0.5;a;b;c;d;e;f;g;h" ";") with children := [1, 2] },
   { mkLeafNode (jsSplit "1;60;0.2;0;2;40,20" ";") with parent := some 0 },
   { mkLeafNode (jsSplit "1;40;0.3;1;2;10,30" ";") with parent := some 0 }]

/-- Error component of a result (`none` when the computation succeeded). -/
def exceptErr : Except JSErr α → Option JSErr
  | .ok _ => none
  | .error e => some e

/-- The record lines of a tree statistics file (everything after the two
header lines). -/
def treeLines (text : String) : List String :=
  (jsSplit (jsTrim text) "\n").drop 2

/-- A record line whose field count matches neither node schema. -/
def badCount (line : String) : Bool :=
  !((jsSplit line ";").length == 11 || (jsSplit line ";").length == 6)

/-- The depth-and-kind view of a record line: its parsed depth field and
whether its field count selects the leaf schema. -/
def lineView (line : String) : Option ℤ × Bool :=
  (parseIntJS ((jsSplit line ";").getD 0 ""), (jsSplit line ";").length == 6)

/-- A small well-formed layout tree: an internal root of 10 samples with
two leaves of 6 and 4 samples. -/
def exPTree : PTree :=
  .node ⟨.num 10, .num 0, .nan, false⟩ [.leaf exLeafA, .leaf exLeafB]

/-- A well-formed layout tree whose internal root has `samples = 0` (the
claimed numeric edge case): its children's sample ratios are `0/0 = NaN`. -/
def exPTreeZero : PTree :=
  .node ⟨.num 0, .num 0, .nan, false⟩
    [.leaf ⟨.num 0, .num 0, some 0, some 1, [.num 0], some 0, false⟩,
     .leaf ⟨.num 0, .num 0, some 1, some 1, [.num 0], some 0, false⟩]

/-! ## The `mkRat` arithmetic agrees with the field operations of `ℚ` -/

/-- `ratDiv` is division of `ℚ`. -/
theorem ratDiv_eq_div (a b : ℚ) : ratDiv a b = a / b := by
  rw [Rat.div_def']
  unfold ratDiv
  simp only [Rat.mkRat_eq_divInt]
  split
  case isTrue h =>
    rw [show (((-((a.den : ℤ) * b.num)).toNat : ℤ)) = -((a.den : ℤ) * b.num) from
      Int.toNat_of_nonneg (by omega), Rat.divInt_neg, neg_neg]
  case isFalse h =>
    rw [show ((((a.den : ℤ) * b.num).toNat : ℤ)) = ((a.den : ℤ) * b.num) from
      Int.toNat_of_nonneg (by omega)]

/-- `ratAdd` is addition of `ℚ`. -/
theorem ratAdd_eq_add (a b : ℚ) : ratAdd a b = a + b := by
  unfold ratAdd
  rw [Rat.mkRat_eq_divInt]
  conv_rhs => rw [← Rat.num_divInt_den a, ← Rat.num_divInt_den b]
  rw [Rat.divInt_add_divInt _ _ (by exact_mod_cast a.den_nz) (by exact_mod_cast b.den_nz)]
  push_cast
  ring_nf

/-- `ratSub` is subtraction of `ℚ`. -/
theorem ratSub_eq_sub (a b : ℚ) : ratSub a b = a - b := by
  unfold ratSub
  rw [Rat.mkRat_eq_divInt]
  conv_rhs => rw [← Rat.num_divInt_den a, ← Rat.num_divInt_den b]
  rw [Rat.divInt_sub_divInt _ _ (by exact_mod_cast a.den_nz) (by exact_mod_cast b.den_nz)]
  push_cast
  ring_nf

/-- `ratMul` is multiplication of `ℚ`. -/
theorem ratMul_eq_mul (a b : ℚ) : ratMul a b = a * b := by
  unfold ratMul
  rw [Rat.mkRat_eq_divInt]
  conv_rhs => rw [← Rat.num_divInt_den a, ← Rat.num_divInt_den b]
  rw [Rat.divInt_mul_divInt']
  push_cast
  ring_nf

/-- `ratNeg` is negation of `ℚ`. -/
theorem ratNeg_eq_neg (a : ℚ) : ratNeg a = -a := by
  unfold ratNeg
  rw [Rat.mkRat_eq_divInt, Rat.neg_def]

/-- `ratAbs` is the absolute value of `ℚ`. -/
theorem ratAbs_eq_abs (a : ℚ) : ratAbs a = |a| := by
  unfold ratAbs
  rw [ratNeg_eq_neg]
  by_cases h : a.num < 0
  · rw [if_pos h, abs_of_neg (by rw [← not_le, ← Rat.num_nonneg]; omega)]
  · rw [if_neg h, abs_of_nonneg (Rat.num_nonneg.mp (by omega))]

/-! ## C2 — the UP branching strategy -/

/-- **C2, counterexample.**  Take a node with `samples = 10`, `angle = -1`
and children of 6 and 4 samples: `firstBigger` and `leftBound` both hold,
so the claim's rule makes `rightChild = children[1]`; the code instead
swaps, returning `rightChild = children[0]` (and the two children are
distinct). -/
theorem c2_counterexample :
    ((JSNum.num 6).div (.num 10)).geb (.num (mkRat 1 2)) = true ∧
    (JSNum.num (-1)).ltb 0 = true ∧
    branchStrategy .up (.num 10) (.num (-1)) [.leaf exLeafA, .leaf exLeafB] =
      .ok (some (.leaf exLeafB), some (.leaf exLeafA)) ∧
    PTree.leaf exLeafA ≠ PTree.leaf exLeafB := by
  refine ⟨by decide, by decide, rfl, ?_⟩
  intro h
  rw [PTree.leaf.injEq] at h
  exact absurd h (by decide)

/-- **C2** (corrected).  Under the UP branching strategy, for a node with
two children the code returns `(leftChild, rightChild) =
(children[1], children[0])` — the swap — exactly when
`firstBigger = (children[0].samples/node.samples >= 0.5)` and
`leftBound = (node.angle < 0)` coincide, and `(children[0], children[1])`
when they differ; i.e. `rightChild = children[1]` exactly when
`firstBigger XOR leftBound`, the opposite of the claimed condition. -/
theorem c2_up_strategy (samples angle : JSNum) (c0 c1 : PTree) :
    branchStrategy .up samples angle [c0, c1] =
      .ok (if ((c0.samples.div samples).geb (.num (mkRat 1 2)) = angle.ltb 0)
           then (some c1, some c0) else (some c0, some c1)) := by
  cases h1 : (c0.samples.div samples).geb (.num (mkRat 1 2)) <;>
    cases h2 : angle.ltb 0 <;> simp [branchStrategy, h1, h2]

/-! ## C3 — createForest -/

/-- **C3, counterexample.**  `createForest` does not fail with `FormatError`
on an unparseable numeric token, nor on an OOB/tree count mismatch: with an
OOB block `"abc\n0.77"` (the first token parses to `NaN`, and there are two
entries for one tree) it succeeds, storing `NaN` as the first tree's
`oobError`. -/
theorem c3_counterexample :
    parseFloatJS "abc" = .nan ∧
    ((createForest exForestBad).map fun f =>
        (f.totalSamples, f.trees.length, f.trees.map TreeRec.oobError)) =
      .ok (.num 100, 1, [some .nan]) := by
  exact ⟨by decide, by decide⟩

/-- **C3** (corrected).  `createForest` performs no numeric validation (the
counterexample shows unparseable tokens silently become `NaN` and a count
mismatch leaves extra entries unread); with zero trees it fails with a
`TypeError` (reading `trees[0].baseNode`), not an `EmptyForestError`; and
whenever it succeeds, `totalSamples` is the `samples` field of the first
tree's root node. -/
theorem c3_create_forest :
    (∀ rd : RawData, rd.treeFileContents = [] → createForest rd = .error .typeError) ∧
    (∀ rd f, createForest rd = .ok f →
      ∃ t0 root, f.trees.get? 0 = some t0 ∧ t0.baseNode.get? 0 = some root ∧
        f.totalSamples = root.samples) := by
  constructor
  · intro rd h
    simp only [createForest]
    split
    · rfl
    · simp only [h, List.enum_nil, List.mapM_nil]
      rfl
  · intro rd f hok
    simp only [createForest] at hok
    split at hok
    · exact Except.noConfusion hok
    next oobPart heq1 =>
      split at hok
      · exact Except.noConfusion hok
      next trees heq2 =>
        split at hok
        · exact Except.noConfusion hok
        next t0 heq3 =>
          split at hok
          · exact Except.noConfusion hok
          next root heq4 =>
            injection hok with h
            subst h
            exact ⟨t0, root, heq3, heq4, rfl⟩

/-- **C3, witness.**  Applying the theorem's empty-forest part to a
concrete input with no tree files. -/
theorem c3_create_forest_witness :
    createForest (RawData.mk "[1.0]\n\n0.5\n\n0.2" []) = .error .typeError :=
  c3_create_forest.1 (RawData.mk "[1.0]\n\n0.5\n\n0.2" []) rfl

/-! ## C8 — arity of parsed trees -/

/-- Every node a record line constructs starts with no children. -/
theorem lineToNode_children {line : String} {nd : PNode} (h : lineToNode line = .ok nd) :
    nd.children = [] := by
  simp only [lineToNode] at h
  split at h
  · injection h with h; subst h; rfl
  split at h
  · injection h with h; subst h; rfl
  · exact Except.noConfusion h

/-- All nodes produced by the record-construction pass are childless. -/
theorem mapM_lineToNode_children :
    ∀ (lines : List String) (nodes : List PNode),
      mapExcept lineToNode lines = .ok nodes → ∀ nd ∈ nodes, nd.children = [] := by
  intro lines
  induction lines with
  | nil =>
    intro nodes h nd hm
    simp only [mapExcept] at h
    injection h with h
    subst h
    cases hm
  | cons l ls ih =>
    intro nodes h nd hm
    simp only [mapExcept] at h
    split at h
    · exact Except.noConfusion h
    next x h1 =>
      split at h
      · exact Except.noConfusion h
      next xs h2 =>
        injection h with h
        subst h
        rcases List.mem_cons.mp hm with rfl | hm2
        · exact lineToNode_children h1
        · exact ih xs h2 nd hm2

/-- `add` preserves "every leaf is childless": it only appends to an
internal node's children and only rewrites a node's `parent`. -/
theorem addChild_leaf_inv {a : List PNode} {p c : ℕ} {a' : List PNode}
    (h : addChild a p c = .ok a')
    (inv : ∀ nd ∈ a, nd.isLeaf = true → nd.children = []) :
    ∀ nd ∈ a', nd.isLeaf = true → nd.children = [] := by
  simp only [addChild] at h
  split at h
  · exact Except.noConfusion h
  next pn hget =>
    split at h
    · exact Except.noConfusion h
    next hleaf =>
      split at h
      · injection h with h
        subst h
        intro nd hm hl
        rcases List.mem_or_eq_of_mem_set hm with h2 | h2
        · exact inv nd h2 hl
        · subst h2
          simp only at hl
          exact absurd hl (by simpa using hleaf)
      next cn hgetc =>
        injection h with h
        subst h
        intro nd hm hl
        rcases List.mem_or_eq_of_mem_set hm with h2 | h2
        · rcases List.mem_or_eq_of_mem_set h2 with h3 | h3
          · exact inv nd h3 hl
          · subst h3
            simp only at hl
            exact absurd hl (by simpa using hleaf)
        · subst h2
          simp only at hl ⊢
          have hcn := List.get?_mem hgetc
          rcases List.mem_or_eq_of_mem_set hcn with h3 | h3
          · exact inv cn h3 hl
          · subst h3
            simp only at hl
            exact absurd hl (by simpa using hleaf)

/-- The linking loop preserves "every leaf is childless". -/
theorem parseLoop_leaf_inv :
    ∀ (idxs : List ℕ) (a : List PNode) (stack : List ℕ) (a' : List PNode),
      parseLoop a stack idxs = .ok a' →
      (∀ nd ∈ a, nd.isLeaf = true → nd.children = []) →
      (∀ nd ∈ a', nd.isLeaf = true → nd.children = []) := by
  intro idxs
  induction idxs with
  | nil =>
    intro a stack a' h inv
    unfold parseLoop at h
    injection h with h
    subst h
    exact inv
  | cons i rest ih =>
    intro a stack a' h inv
    simp only [parseLoop] at h
    split at h
    · exact Except.noConfusion h
    split at h
    · exact Except.noConfusion h
    split at h
    · exact Except.noConfusion h
    split at h
    · exact Except.noConfusion h
    next a2 hadd =>
      exact ih _ _ _ h (addChild_leaf_inv hadd inv)

/-- **C8, counterexample.**  The input with depth sequence `[0,1,1,1]`
(three sibling records at depth 1) is accepted, and its root — an
`InternalNode` — ends up with three children, contradicting the claimed
arity bound. -/
theorem c8_counterexample :
    ((parseStatisticsContent exTreeTriple).map fun a =>
      (a.map PNode.isLeaf, a.map PNode.children)) =
      .ok ([false, true, true, true], [[1, 2, 3], [], [], []]) := by decide

/-- **C8** (corrected).  For every accepted input, every `LeafNode` of the
resulting tree has no children (attaching to a leaf is a `TypeError`, so an
accepted run never does it); but an `InternalNode` is not bounded by two
children — a run of three sibling records attaches all three to the same
parent, as the counterexample shows. -/
theorem c8_leaf_children (text : String) (a : List PNode)
    (h : parseStatisticsContent text = .ok a) :
    ∀ nd ∈ a, nd.isLeaf = true → nd.children = [] := by
  simp only [parseStatisticsContent] at h
  split at h
  · exact Except.noConfusion h
  next nodes hmap =>
    split at h
    · injection h with h
      subst h
      intro nd hm
      cases hm
    · next hne =>
      intro nd hm hl
      refine parseLoop_leaf_inv _ _ _ _ h ?_ nd hm hl
      intro nd' hm' _
      exact mapM_lineToNode_children _ _ hmap nd' hm'

/-- **C8, witness.**  Applying the theorem to the three-node example file:
its first leaf record (arena index 1) has no children. -/
theorem c8_leaf_children_witness : (exArena3.getD 1 default).children = [] := by
  exact c8_leaf_children exTreeText exArena3 (by decide) _ (by decide) (by decide)

/-! ## C4 — error taxonomy of the statistics parser -/

/-- A record line constructs a node exactly when its field count is 11 or
6; the only error it throws is `FormatError`. -/
theorem lineToNode_err (line : String) :
    (lineToNode line = .error .formatError ↔ badCount line = true) ∧
    ∀ e, lineToNode line = .error e → e = .formatError := by
  constructor
  · simp only [lineToNode, badCount]
    split
    · next h => simp [h]
    · split
      · next h2 => simp [h2]
      · next h1 h2 => simp [h1, h2]
  · intro e h
    simp only [lineToNode] at h
    split at h
    · exact Except.noConfusion h
    split at h
    · exact Except.noConfusion h
    · injection h with h
      exact h.symm

/-- The view of a constructed node is the view of its line. -/
theorem lineToNode_view {line : String} {nd : PNode} (h : lineToNode line = .ok nd) :
    nodeView nd = lineView line := by
  simp only [lineToNode] at h
  split at h
  · next h11 =>
    injection h with h
    subst h
    simp only [nodeView, mkInternalNode, lineView, h11]
    rfl
  split at h
  · next h6 =>
    injection h with h
    subst h
    simp only [nodeView, mkLeafNode, lineView, h6]
    rfl
  · exact Except.noConfusion h

/-- The construction pass errs (always with `FormatError`) exactly when
some line has a bad field count. -/
theorem mapM_lineToNode_err (lines : List String) :
    (∃ e, mapExcept lineToNode lines = .error e) ↔ ∃ l ∈ lines, badCount l = true := by
  induction lines with
  | nil => simp [mapExcept]
  | cons l ls ih =>
    simp only [mapExcept]
    cases h1 : lineToNode l with
    | error e =>
      have he := (lineToNode_err l).2 e h1
      subst he
      have hbad : badCount l = true := (lineToNode_err l).1.mp h1
      simp [hbad]
    | ok x =>
      have hgood : ¬ badCount l = true := by
        intro hbad
        rw [(lineToNode_err l).1.mpr hbad] at h1
        exact Except.noConfusion h1
      cases h2 : mapExcept lineToNode ls with
      | error e =>
        have := ih.mp ⟨e, h2⟩
        simp only [List.mem_cons]
        constructor
        · intro _
          obtain ⟨l', hl', hb⟩ := this
          exact ⟨l', Or.inr hl', hb⟩
        · intro _
          exact ⟨e, rfl⟩
      | ok xs =>
        simp only [List.mem_cons]
        constructor
        · intro ⟨e, he⟩
          exact Except.noConfusion he
        · rintro ⟨l', hl' | hl', hb⟩
          · subst hl'
            exact absurd hb hgood
          · exact absurd (ih.mpr ⟨l', hl', hb⟩) (by simp [h2])

/-- The construction pass yields one node per line, with matching views. -/
theorem mapM_lineToNode_ok {lines : List String} {nodes : List PNode}
    (h : mapExcept lineToNode lines = .ok nodes) :
    nodes.length = lines.length ∧ nodes.map nodeView = lines.map lineView := by
  induction lines generalizing nodes with
  | nil =>
    simp only [mapExcept] at h
    injection h with h
    subst h
    simp
  | cons l ls ih =>
    simp only [mapExcept] at h
    split at h
    · exact Except.noConfusion h
    next x h1 =>
      split at h
      · exact Except.noConfusion h
      next xs h2 =>
        injection h with h
        subst h
        obtain ⟨hlen, hview⟩ := ih h2
        simp [hlen, hview, lineToNode_view h1]

/-- `jsSliceZero` commutes with `map`. -/
theorem jsSliceZero_map (x : Option ℤ) (f : α → β) (l : List α) :
    jsSliceZero x (l.map f) = (jsSliceZero x l).map f := by
  cases x with
  | none => rfl
  | some z =>
    by_cases hz : 0 ≤ z
    · simp only [jsSliceZero, if_pos hz]
      exact (List.map_take f l _).symm
    · simp only [jsSliceZero, if_neg hz, List.length_map]
      exact (List.map_take f l _).symm

/-- Overwriting an entry with one of the same view leaves all views
unchanged. -/
theorem set_view {a : List PNode} {i : ℕ} {x : PNode} (s : ℕ)
    (hx : ∀ pn, a.get? i = some pn → nodeView x = nodeView pn) :
    nodeView ((a.set i x).getD s default) = nodeView (a.getD s default) := by
  by_cases hsi : i = s
  · subst hsi
    cases hg : a.get? i with
    | none =>
      rw [List.set_eq_of_length_le (List.get?_eq_none.mp hg)]
    | some pn =>
      obtain ⟨hlt, _⟩ := List.get?_eq_some.mp hg
      rw [List.getD_eq_get?, List.getD_eq_get?, List.get?_set_eq_of_lt _ hlt, hg]
      exact hx pn hg
  · rw [List.getD_eq_get?, List.getD_eq_get?, List.get?_set_ne _ _ hsi]

/-- `add` changes neither the arena's length nor any node's
depth-and-kind view. -/
theorem addChild_view {a : List PNode} {p c : ℕ} {a' : List PNode}
    (h : addChild a p c = .ok a') :
    a'.length = a.length ∧ ∀ s, viewAt a' s = viewAt a s := by
  simp only [addChild] at h
  split at h
  · exact Except.noConfusion h
  next pn hget =>
    split at h
    · exact Except.noConfusion h
    next hleaf =>
      have hv1 : ∀ s, viewAt (a.set p { pn with children := pn.children ++ [c] }) s = viewAt a s := by
        intro s
        exact set_view s fun pn' hg => by rw [hget] at hg; injection hg with hg; subst hg; rfl
      split at h
      · injection h with h
        subst h
        exact ⟨List.length_set a p _, hv1⟩
      next cn hgetc =>
        injection h with h
        subst h
        refine ⟨by rw [List.length_set, List.length_set], fun s => ?_⟩
        refine Eq.trans ?_ (hv1 s)
        exact set_view s fun pn' hg => by rw [hgetc] at hg; injection hg with hg; subst hg; rfl

/-- `add` on an internal node succeeds. -/
theorem addChild_ok {a : List PNode} {p c : ℕ} {pn : PNode}
    (hg : a.get? p = some pn) (hnl : pn.isLeaf = false) :
    ∃ a', addChild a p c = .ok a' := by
  simp only [addChild, hg, hnl, Bool.false_eq_true, if_false]
  split
  · exact ⟨_, rfl⟩
  · exact ⟨_, rfl⟩

/-- `add` on a leaf node throws a `TypeError`. -/
theorem addChild_leaf_err {a : List PNode} {p c : ℕ} {pn : PNode}
    (hg : a.get? p = some pn) (hl : pn.isLeaf = true) :
    addChild a p c = .error .typeError := by
  simp only [addChild, hg, hl, if_true]

/-- A sliced stack is a subset of the stack. -/
theorem jsSliceZero_subset (x : Option ℤ) (l : List α) : jsSliceZero x l ⊆ l := by
  cases x with
  | none => intro s hs; cases hs
  | some z =>
    by_cases hz : 0 ≤ z
    · simp only [jsSliceZero, if_pos hz]
      exact List.take_subset _ _
    · simp only [jsSliceZero, if_neg hz]
      exact List.take_subset _ _

/-- The reconstruction loop's outcome kind is exactly that of the
depth-and-kind simulation: whether `parseStatisticsContent` succeeds or
which error it throws depends only on each record's parsed depth and its
schema kind. -/
theorem parseLoop_sim :
    ∀ (idxs : List ℕ) (a : List PNode) (stack : List ℕ),
      (∀ j ∈ idxs, j < a.length) → (∀ s ∈ stack, s < a.length) →
      exceptErr (parseLoop a stack idxs) =
        depthSim (stack.map (viewAt a)) (idxs.map (viewAt a)) := by
  intro idxs
  induction idxs with
  | nil => intro a stack _ _; rfl
  | cons i rest ih =>
    intro a stack hidx hstk
    have hi : i < a.length := hidx i (List.mem_cons_self i rest)
    have hrest : ∀ j ∈ rest, j < a.length := fun j hj => hidx j (List.mem_cons_of_mem i hj)
    have cont : ∀ (stack1 : List ℕ), (∀ s ∈ stack1, s < a.length) →
        exceptErr (match stack1.getLast? with
          | none => Except.error JSErr.typeError
          | some latest1 =>
            match addChild a latest1 i with
            | .error e => Except.error e
            | .ok a2 => parseLoop a2 (stack1 ++ [i]) rest) =
        (match (stack1.map (viewAt a)).getLast? with
          | none => some JSErr.typeError
          | some (_, lf1) =>
            if lf1 then some JSErr.typeError
            else depthSim (stack1.map (viewAt a) ++ [viewAt a i]) (rest.map (viewAt a))) := by
      intro stack1 hs1
      rw [List.getLast?_map]
      cases hL1 : stack1.getLast? with
      | none => rfl
      | some latest1 =>
        simp only [Option.map_some']
        have hlt : latest1 < a.length := hs1 latest1 (List.mem_of_mem_getLast? hL1)
        cases hg : a.get? latest1 with
        | none => exact absurd (List.get?_eq_none.mp hg) (Nat.not_le_of_lt hlt)
        | some pn =>
          have hpd : a.getD latest1 default = pn := by rw [List.getD_eq_get?, hg]; rfl
          cases hleaf : pn.isLeaf with
          | true =>
            rw [addChild_leaf_err hg hleaf]
            simp only [viewAt, nodeView, hpd, hleaf, if_true]
            rfl
          | false =>
            obtain ⟨a2, ha2⟩ := addChild_ok hg hleaf
            rw [ha2]
            obtain ⟨hlen2, hview2⟩ := addChild_view ha2
            have hfun : viewAt a2 = viewAt a := funext hview2
            have hih := ih a2 (stack1 ++ [i])
              (fun j hj => hlen2 ▸ hrest j hj)
              (fun s hs => by
                rw [hlen2]
                rcases List.mem_append.mp hs with hs | hs
                · exact hs1 s hs
                · rw [List.mem_singleton.mp hs]; exact hi)
            rw [hih, hfun, List.map_append]
            simp only [viewAt, nodeView, hpd, hleaf, Bool.false_eq_true, if_false,
              List.map_cons, List.map_nil]
    simp only [List.map_cons, parseLoop, depthSim]
    rw [List.getLast?_map]
    cases hL : stack.getLast? with
    | none => rfl
    | some latest0 =>
      simp only [Option.map_some']
      simp only [viewAt, nodeView]
      cases h1 : jsEqI (a.getD i default).depth (jsAddOneI (a.getD latest0 default).depth) with
      | true =>
        simp only [eq_self_iff_true, if_true]
        simpa only [viewAt, nodeView] using cont stack hstk
      | false =>
        simp only [Bool.false_eq_true, if_false]
        cases h2 : jsEqI (a.getD i default).depth (a.getD latest0 default).depth with
        | true =>
          simp only [eq_self_iff_true, if_true]
          rw [← List.map_dropLast]
          simpa only [viewAt, nodeView] using
            cont stack.dropLast (fun s hs => hstk s (List.dropLast_subset _ hs))
        | false =>
          simp only [Bool.false_eq_true, if_false]
          by_cases h3 : jsLtI (a.getD i default).depth (a.getD latest0 default).depth = true
          · simp only [h3, eq_self_iff_true, if_true]
            rw [jsSliceZero_map]
            simpa only [viewAt, nodeView] using
              cont (jsSliceZero (a.getD i default).depth stack)
                (fun s hs => hstk s (jsSliceZero_subset _ _ hs))
          · rw [Bool.not_eq_true] at h3
            simp only [h3, Bool.false_eq_true, if_false]
            rfl

/-- The construction pass only ever throws `FormatError`. -/
theorem mapExcept_err_format {lines : List String} {e : JSErr}
    (h : mapExcept lineToNode lines = .error e) : e = .formatError := by
  induction lines with
  | nil => exact Except.noConfusion h
  | cons l ls ih =>
    simp only [mapExcept] at h
    split at h
    · next e' h1 =>
      injection h with h
      subst h
      exact (lineToNode_err l).2 _ h1
    · split at h
      · next h2 =>
        injection h with h
        subst h
        exact ih h2
      · exact Except.noConfusion h

/-- The depth-and-kind simulation never reports a `FormatError`. -/
theorem depthSim_ne_format :
    ∀ (recs : List (Option ℤ × Bool)) (stack : List (Option ℤ × Bool)),
      depthSim stack recs ≠ some .formatError := by
  intro recs
  induction recs with
  | nil => intro stack h; exact Option.noConfusion h
  | cons r rest ih =>
    intro stack h
    obtain ⟨nd, lf⟩ := r
    simp only [depthSim] at h
    split at h
    · injection h with h; exact JSErr.noConfusion h
    · split at h
      · injection h with h; exact JSErr.noConfusion h
      · split at h
        · injection h with h; exact JSErr.noConfusion h
        · split at h
          · injection h with h; exact JSErr.noConfusion h
          · exact ih _ h

/-- Views of the arena entries along `range'` are the node views. -/
theorem viewAt_range' :
    ∀ (rest pre : List PNode),
      (List.range' pre.length rest.length).map (viewAt (pre ++ rest)) = rest.map nodeView := by
  intro rest
  induction rest with
  | nil => intro pre; rfl
  | cons r rs ih =>
    intro pre
    rw [List.length_cons, List.range'_succ, List.map_cons]
    have h1 : viewAt (pre ++ r :: rs) pre.length = nodeView r := by
      unfold viewAt
      rw [List.getD_eq_get?, List.get?_append_right (Nat.le_refl _), Nat.sub_self]
      rfl
    have h2 := ih (pre ++ [r])
    rw [List.length_append, List.length_singleton] at h2
    rw [List.append_assoc, List.singleton_append] at h2
    rw [h1, h2, List.map_cons]

/-- Error component characterisation. -/
theorem exceptErr_eq_some {r : Except JSErr α} {e : JSErr} :
    exceptErr r = some e ↔ r = .error e := by
  cases r with
  | ok v =>
    simp only [exceptErr]
    constructor
    · intro h; exact Option.noConfusion h
    · intro h; exact Except.noConfusion h
  | error e' =>
    simp only [exceptErr]
    constructor
    · intro h; injection h with h; rw [h]
    · intro h; injection h with h; rw [h]

/-- **C4** (confirmed).  The statistics parser fails with `FormatError`
("Unknown tree file format") exactly when some record line's field count is
neither 11 nor 6 — the construction pass runs first and throws nothing
else.  It fails with `StructuralError` ("Malformed statistics content")
exactly when all field counts are fine and the depth-and-kind stack
discipline (`depthSim`, whose only `structuralError` arises when a record's
depth matches neither `top.depth + 1`, `top.depth`, nor `< top.depth`,
i.e. exceeds the stack top's depth by more than one) reports it; in
particular the depth sequence `[0,1,3]` is rejected with `StructuralError`
and a 7-field record with `FormatError`.  Depth sequences that trigger
neither condition never raise `StructuralError` (though the stack discipline
may still fail with a `TypeError`, e.g. on an emptied stack). -/
theorem c4_error_taxonomy (text : String) :
    (parseStatisticsContent text = .error .formatError ↔
      ∃ l ∈ treeLines text, badCount l = true) ∧
    (parseStatisticsContent text = .error .structuralError ↔
      ((∀ l ∈ treeLines text, badCount l = false) ∧
       match (treeLines text).map lineView with
       | [] => False
       | v :: vs => depthSim [v] vs = some .structuralError)) ∧
    parseStatisticsContent exTreeJump = .error .structuralError ∧
    parseStatisticsContent exTreeSeven = .error .formatError := by
  have hTL : (jsSplit (jsTrim text) "\n").drop 2 = treeLines text := rfl
  refine ⟨?_, ?_, by decide, by decide⟩
  · simp only [parseStatisticsContent, hTL]
    cases hmap : mapExcept lineToNode (treeLines text) with
    | error e =>
      have he := mapExcept_err_format hmap
      subst he
      constructor
      · intro _
        exact (mapM_lineToNode_err _).mp ⟨_, hmap⟩
      · intro _
        rfl
    | ok nodes =>
      have hno : ¬ ∃ l ∈ treeLines text, badCount l = true := by
        intro hbad
        obtain ⟨e, he⟩ := (mapM_lineToNode_err _).mpr hbad
        rw [hmap] at he
        exact Except.noConfusion he
      cases nodes with
      | nil =>
        exact ⟨fun h => Except.noConfusion h, fun hbad => absurd hbad hno⟩
      | cons n0 rest =>
        constructor
        · intro h
          have h' : parseLoop (n0 :: rest) [0] (List.range' 1 ((n0 :: rest).length - 1)) =
              .error .formatError := h
          have hb := parseLoop_sim (List.range' 1 ((n0 :: rest).length - 1)) (n0 :: rest) [0]
            (by
              intro j hj
              have := List.mem_range'_1.mp hj
              simp only [List.length_cons, Nat.add_sub_cancel] at this ⊢
              omega)
            (by intro s hs; rw [List.mem_singleton.mp hs]; simp)
          rw [h'] at hb
          exact absurd hb.symm (depthSim_ne_format _ _)
        · intro hbad
          exact absurd hbad hno
  · simp only [parseStatisticsContent, hTL]
    cases hmap : mapExcept lineToNode (treeLines text) with
    | error e =>
      have he := mapExcept_err_format hmap
      subst he
      constructor
      · intro h
        injection h with h
        exact JSErr.noConfusion h
      · rintro ⟨hall, _⟩
        obtain ⟨l, hl, hb⟩ := (mapM_lineToNode_err _).mp ⟨_, hmap⟩
        rw [hall l hl] at hb
        exact Bool.noConfusion hb
    | ok nodes =>
      obtain ⟨hlen, hview⟩ := mapM_lineToNode_ok hmap
      have hgood : ∀ l ∈ treeLines text, badCount l = false := by
        intro l hl
        cases hbc : badCount l with
        | false => rfl
        | true =>
          obtain ⟨e, he⟩ := (mapM_lineToNode_err _).mpr ⟨l, hl, hbc⟩
          rw [hmap] at he
          exact Except.noConfusion he
      cases nodes with
      | nil =>
        have hnil : treeLines text = [] := List.length_eq_zero.mp (by rw [← hlen]; rfl)
        constructor
        · intro h
          exact Except.noConfusion h
        · rintro ⟨_, hm⟩
          rw [hnil] at hm
          exact False.elim hm
      | cons n0 rest =>
        have hb := parseLoop_sim (List.range' 1 ((n0 :: rest).length - 1)) (n0 :: rest) [0]
          (by
            intro j hj
            have := List.mem_range'_1.mp hj
            simp only [List.length_cons, Nat.add_sub_cancel] at this ⊢
            omega)
          (by intro s hs; rw [List.mem_singleton.mp hs]; simp)
        have hsim2 : List.map (viewAt (n0 :: rest)) (List.range' 1 ((n0 :: rest).length - 1)) =
            rest.map nodeView := by
          have h2 := viewAt_range' rest [n0]
          simpa using h2
        have hsim1 : List.map (viewAt (n0 :: rest)) [0] = [nodeView n0] := rfl
        rw [hsim1, hsim2] at hb
        have hviews : (treeLines text).map lineView = nodeView n0 :: rest.map nodeView := by
          rw [← hview]
          rfl
        constructor
        · intro h
          have h' : parseLoop (n0 :: rest) [0] (List.range' 1 ((n0 :: rest).length - 1)) =
              .error .structuralError := h
          rw [h'] at hb
          refine ⟨hgood, ?_⟩
          rw [hviews]
          exact hb.symm
        · rintro ⟨_, hm⟩
          rw [hviews] at hm
          have hm' : depthSim [nodeView n0] (rest.map nodeView) = some .structuralError := hm
          have hfin : exceptErr (parseLoop (n0 :: rest) [0]
              (List.range' 1 ((n0 :: rest).length - 1))) = some .structuralError := by
            rw [hb]
            exact hm'
          exact exceptErr_eq_some.mp hfin

/-! ## Structural lemmas about the TreeView layout recursion -/

/-- Every tree has at least one node. -/
theorem PTree.count_pos (t : PTree) : 1 ≤ PTree.count t := by
  cases t with
  | leaf li => exact Nat.le_refl 1
  | node ii cs => exact Nat.le_add_right 1 _

/-- A well-formed internal node has exactly two children. -/
theorem wfB_node {ii : IntInfo} {cs : List PTree} (h : PTree.wfB (.node ii cs) = true) :
    ∃ c0 c1, cs = [c0, c1] ∧ PTree.wfB c0 = true ∧ PTree.wfB c1 = true := by
  simp only [PTree.wfB, Bool.and_eq_true, beq_iff_eq] at h
  obtain ⟨hlen, hlist⟩ := h
  match cs, hlen with
  | [c0, c1], _ =>
    simp only [PTree.wfBList, Bool.and_eq_true] at hlist
    exact ⟨c0, c1, rfl, hlist.1, hlist.2.1⟩

/-- On a well-formed tree the layout recursion never throws. -/
theorem branchTV_ok (sn cn : JSNum → JSNum) (maxD : ℕ) (maxSF minB : JSNum) :
    ∀ (n : ℕ) (t : PTree), PTree.count t ≤ n → PTree.wfB t = true → ∀ g,
      ∃ out, branchTV sn cn maxD maxSF minB t g = .ok out := by
  intro n
  induction n with
  | zero =>
    intro t hc
    exact absurd (Nat.le_trans (PTree.count_pos t) hc) (by omega)
  | succ n ih =>
    intro t hc hwf g
    cases t with
    | leaf li =>
      by_cases hcut : g.depth + 1 = maxD
      · exact ⟨_, by simp only [branchTV, if_pos hcut]; rfl⟩
      · exact ⟨_, by simp only [branchTV, if_neg hcut]; rfl⟩
    | node ii cs =>
      obtain ⟨c0, c1, rfl, hw0, hw1⟩ := wfB_node hwf
      by_cases hcut : g.depth + 1 = maxD
      · exact ⟨_, by simp only [branchTV, if_pos hcut]; rfl⟩
      · have hc0 : PTree.count c0 ≤ n := by
          have h1 := PTree.count_pos c1
          simp only [PTree.count, PTree.countList] at hc
          omega
        have hc1 : PTree.count c1 ≤ n := by
          have h0 := PTree.count_pos c0
          simp only [PTree.count, PTree.countList] at hc
          omega
        obtain ⟨o0, ho0⟩ := ih c0 hc0 hw0
          (addBranchInformation sn cn g.x2 g.y2
            (g.angle.sub (((c0.samples.div ii.samples)).sub 1).jabs)
            ((((c0.samples.div ii.samples)).jmin maxSF).mul g.length |>.jmax minB)
            (g.depth + 1))
        obtain ⟨o1, ho1⟩ := ih c1 hc1 hw1
          (addBranchInformation sn cn g.x2 g.y2
            (g.angle.add (((c1.samples.div ii.samples)).sub 1).jabs)
            ((((c1.samples.div ii.samples)).jmin maxSF).mul g.length |>.jmax minB)
            (g.depth + 1))
        obtain ⟨b0, l0, u0⟩ := o0
        obtain ⟨b1, l1, u1⟩ := o1
        exact ⟨_, by simp only [branchTV, if_neg hcut]; rw [ho0, ho1]⟩

/-- Branch records of the TreeView recursion: the first record is the node
itself with the geometry it was called with, and every later record's
length follows the multiplicative decay formula with respect to some
earlier record — its parent. -/
theorem branchTV_lengths (sn cn : JSNum → JSNum) (maxD : ℕ) (maxSF minB : JSNum) :
    ∀ (n : ℕ) (t : PTree), PTree.count t ≤ n → ∀ g bs ls us,
      branchTV sn cn maxD maxSF minB t g = .ok (bs, ls, us) →
      bs.head? = some ⟨t, g⟩ ∧
      ∀ r ∈ bs.drop 1, ∃ p ∈ bs, ∃ j, j < 2 ∧ p.node.childList.get? j = some r.node ∧
        r.geom.length =
          (((r.node.samples.div p.node.samples).jmin maxSF).mul p.geom.length).jmax minB := by
  intro n
  induction n with
  | zero =>
    intro t hc
    exact absurd (Nat.le_trans (PTree.count_pos t) hc) (by omega)
  | succ n ih =>
    intro t hc g bs ls us h
    cases t with
    | leaf li =>
      simp only [branchTV] at h
      split at h <;>
      · injection h with h
        simp only [Prod.mk.injEq] at h
        obtain ⟨rfl, rfl, rfl⟩ := h
        refine ⟨rfl, ?_⟩
        intro r hr
        simp at hr
    | node ii cs =>
      rcases cs with _ | ⟨c0, _ | ⟨c1, rest⟩⟩
      · simp only [branchTV] at h
        split at h
        · injection h with h
          simp only [Prod.mk.injEq] at h
          obtain ⟨rfl, rfl, rfl⟩ := h
          refine ⟨rfl, ?_⟩
          intro r hr
          simp at hr
        · exact Except.noConfusion h
      · simp only [branchTV] at h
        split at h
        · injection h with h
          simp only [Prod.mk.injEq] at h
          obtain ⟨rfl, rfl, rfl⟩ := h
          refine ⟨rfl, ?_⟩
          intro r hr
          simp at hr
        · exact Except.noConfusion h
      · simp only [branchTV] at h
        split at h
        · injection h with h
          simp only [Prod.mk.injEq] at h
          obtain ⟨rfl, rfl, rfl⟩ := h
          refine ⟨rfl, ?_⟩
          intro r hr
          simp at hr
        · split at h
          · exact Except.noConfusion h
          next b0 l0 u0 hr0 =>
            split at h
            · exact Except.noConfusion h
            next b1 l1 u1 hr1 =>
              injection h with h
              simp only [Prod.mk.injEq] at h
              obtain ⟨rfl, rfl, rfl⟩ := h
              have hcp0 := PTree.count_pos c0
              have hcp1 := PTree.count_pos c1
              simp only [PTree.count, PTree.countList] at hc
              obtain ⟨hh0, ht0⟩ := ih c0 (by omega) _ _ _ _ hr0
              obtain ⟨hh1, ht1⟩ := ih c1 (by omega) _ _ _ _ hr1
              refine ⟨rfl, ?_⟩
              intro r hr
              rw [List.drop_one, List.tail_cons] at hr
              rcases List.mem_append.mp hr with hr | hr
              · cases b0 with
                | nil => exact absurd hh0 (by simp)
                | cons hd0 tb0 =>
                  injection hh0 with hh0
                  subst hh0
                  rcases List.mem_cons.mp hr with rfl | hr
                  · refine ⟨⟨.node ii (c0 :: c1 :: rest), g⟩, List.mem_cons_self _ _,
                      0, by omega, rfl, rfl⟩
                  · obtain ⟨p, hp, j, hj, hchild, hlen⟩ := ht0 r (by simpa using hr)
                    exact ⟨p, List.mem_cons_of_mem _ (List.mem_append_left _ hp),
                      j, hj, hchild, hlen⟩
              · cases b1 with
                | nil => exact absurd hh1 (by simp)
                | cons hd1 tb1 =>
                  injection hh1 with hh1
                  subst hh1
                  rcases List.mem_cons.mp hr with rfl | hr
                  · refine ⟨⟨.node ii (c0 :: c1 :: rest), g⟩, List.mem_cons_self _ _,
                      1, by omega, rfl, rfl⟩
                  · obtain ⟨p, hp, j, hj, hchild, hlen⟩ := ht1 r (by simpa using hr)
                    exact ⟨p, List.mem_cons_of_mem _ (List.mem_append_right _ hp),
                      j, hj, hchild, hlen⟩

/-! ## C5 — branch length formula -/

/-- **C5, counterexample.**  The draw.mjs layout engine (`generateTreeElements`,
draw.mjs:94-95) computes a child branch length of `4 +
childSamples/totalSamples*100`: for a 6-sample child of a 10-sample root
(totalSamples 10, trunk 100) it produces 64, while the claimed
multiplicative clamp formula gives 60. -/
theorem c5_counterexample :
    ((generateTreeElementsDm (fun _ => .num 0) (fun _ => .num 0) .simple (.num 10) 0
        exPTree).map fun out => out.1.map fun r => r.geom.length) =
      .ok [.num 100, .num 64, .num 44] ∧
    ((((JSNum.num 6).div (.num 10)).jmin (.num (mkRat 9 10))).mul (.num 100)).jmax (.num 4) =
      .num 60 ∧
    JSNum.num 64 ≠ JSNum.num 60 := by
  exact ⟨by decide, by decide, by decide⟩

/-- **C5** (corrected).  In the TreeView layout engine every branch record
except the root (whose geometry is the anchored trunk) has, with respect to
its parent's record, exactly the claimed length
`max(min(childSamples/parentSamples, maxShorteningFactor) * parentLength,
minBranchLength)`; the draw.mjs engine instead uses the additive formula
`4 + childSamples/totalSamples*100` (see the counterexample). -/
theorem c5_treeview_lengths (sn cn : JSNum → JSNum) (totalSamples : JSNum) (maxD : ℕ)
    (w h trunk maxSF minB : JSNum) (t : PTree) (out : LayoutOut)
    (hok : generateTreeElementsTV sn cn totalSamples maxD w h trunk maxSF minB t = .ok out) :
    out.branches.head? = some ⟨t, addBranchInformation sn cn (w.div 2) h 0 trunk 0⟩ ∧
    ∀ r ∈ out.branches.drop 1, ∃ p ∈ out.branches, ∃ j, j < 2 ∧
      p.node.childList.get? j = some r.node ∧
      r.geom.length =
        (((r.node.samples.div p.node.samples).jmin maxSF).mul p.geom.length).jmax minB := by
  simp only [generateTreeElementsTV] at hok
  split at hok
  · exact Except.noConfusion hok
  next bs ls us hb =>
    injection hok with hok
    subst hok
    exact branchTV_lengths sn cn maxD maxSF minB (PTree.count t) t (Nat.le_refl _) _ _ _ _ hb

/-- **C5, witness.**  On the concrete 3-node tree the theorem applies: the
root record carries the trunk geometry of length 100. -/
theorem c5_treeview_lengths_witness :
    ((generateTreeElementsTV (fun _ => .num 0) (fun _ => .num 0) (.num 10) 0
        (.num 800) (.num 800) (.num 100) (.num (mkRat 9 10)) (.num 4) exPTree).map
      fun out => out.branches.head?.map fun r => r.geom.length) = .ok (some (.num 100)) := by
  cases hok : generateTreeElementsTV (fun _ => .num 0) (fun _ => .num 0) (.num 10) 0
      (.num 800) (.num 800) (.num 100) (.num (mkRat 9 10)) (.num 4) exPTree with
  | error e =>
    have hsome : (generateTreeElementsTV (fun _ => .num 0) (fun _ => .num 0) (.num 10) 0
        (.num 800) (.num 800) (.num 100) (.num (mkRat 9 10)) (.num 4) exPTree).toOption.isSome =
        true := by decide
    rw [hok] at hsome
    exact Bool.noConfusion hsome
  | ok out =>
    have h := (c5_treeview_lengths (fun _ => .num 0) (fun _ => .num 0) (.num 10) 0
      (.num 800) (.num 800) (.num 100) (.num (mkRat 9 10)) (.num 4) exPTree out hok).1
    simp only [Except.map, h, Option.map_some']
    rfl

/-! ## C6 — depth truncation into bunches -/

/-- Depth facts of the TreeView recursion below the cutoff: every branch
record stays below `maxD`; leaf records sit strictly below the cutoff
depth; each bunch record sits exactly at the cutoff and carries its node's
`samples`; and the leaf and bunch records together number exactly one per
truncated subtree (`countStops`). -/
theorem branchTV_depths (sn cn : JSNum → JSNum) (maxD : ℕ) (maxSF minB : JSNum) :
    ∀ (n : ℕ) (t : PTree), PTree.count t ≤ n → PTree.wfB t = true →
      ∀ g bs ls us, branchTV sn cn maxD maxSF minB t g = .ok (bs, ls, us) →
      g.depth < maxD →
      ((∀ r ∈ bs, r.geom.depth < maxD) ∧
       (∀ r ∈ ls, r.depth + 1 < maxD) ∧
       (∀ r ∈ us, r.geom.depth + 1 = maxD ∧ r.samples = r.node.samples) ∧
       ls.length + us.length = countStops maxD g.depth t) := by
  intro n
  induction n with
  | zero =>
    intro t hc
    exact absurd (Nat.le_trans (PTree.count_pos t) hc) (by omega)
  | succ n ih =>
    intro t hc hwf g bs ls us h hd
    cases t with
    | leaf li =>
      simp only [branchTV] at h
      split at h
      · next hcut =>
        injection h with h
        simp only [Prod.mk.injEq] at h
        obtain ⟨rfl, rfl, rfl⟩ := h
        refine ⟨?_, ?_, ?_, ?_⟩
        · intro r hr
          rw [List.mem_singleton.mp hr]
          exact hd
        · intro r hr
          simp at hr
        · intro r hr
          rw [List.mem_singleton.mp hr]
          exact ⟨hcut, rfl⟩
        · simp [countStops]
      · next hcut =>
        injection h with h
        simp only [Prod.mk.injEq] at h
        obtain ⟨rfl, rfl, rfl⟩ := h
        refine ⟨?_, ?_, ?_, ?_⟩
        · intro r hr
          rw [List.mem_singleton.mp hr]
          exact hd
        · intro r hr
          rw [List.mem_singleton.mp hr]
          show g.depth + 1 < maxD
          omega
        · intro r hr
          simp at hr
        · simp [countStops]
    | node ii cs =>
      obtain ⟨c0, c1, rfl, hw0, hw1⟩ := wfB_node hwf
      simp only [branchTV] at h
      split at h
      · next hcut =>
        injection h with h
        simp only [Prod.mk.injEq] at h
        obtain ⟨rfl, rfl, rfl⟩ := h
        refine ⟨?_, ?_, ?_, ?_⟩
        · intro r hr
          rw [List.mem_singleton.mp hr]
          exact hd
        · intro r hr
          simp at hr
        · intro r hr
          rw [List.mem_singleton.mp hr]
          exact ⟨hcut, rfl⟩
        · simp [countStops, hcut]
      · next hcut =>
        split at h
        · exact Except.noConfusion h
        next b0 l0 u0 hr0 =>
          split at h
          · exact Except.noConfusion h
          next b1 l1 u1 hr1 =>
            injection h with h
            simp only [Prod.mk.injEq] at h
            obtain ⟨rfl, rfl, rfl⟩ := h
            have hcp0 := PTree.count_pos c0
            have hcp1 := PTree.count_pos c1
            simp only [PTree.count, PTree.countList] at hc
            have hd1 : g.depth + 1 < maxD := by omega
            obtain ⟨hb0, hl0, hu0, hn0⟩ := ih c0 (by omega) hw0 _ _ _ _ hr0 hd1
            obtain ⟨hb1, hl1, hu1, hn1⟩ := ih c1 (by omega) hw1 _ _ _ _ hr1 hd1
            simp only [addBranchInformation] at hn0 hn1
            refine ⟨?_, ?_, ?_, ?_⟩
            · intro r hr
              rcases List.mem_cons.mp hr with rfl | hr
              · exact hd
              · rcases List.mem_append.mp hr with hr | hr
                · exact hb0 r hr
                · exact hb1 r hr
            · intro r hr
              rcases List.mem_append.mp hr with hr | hr
              · exact hl0 r hr
              · exact hl1 r hr
            · intro r hr
              rcases List.mem_append.mp hr with hr | hr
              · exact hu0 r hr
              · exact hu1 r hr
            · simp only [List.length_append, countStops, if_neg hcut]
              omega

/-- Inserting by samples adds exactly one element. -/
theorem insertBySamples_length (key : α → JSNum) (r : α) (l : List α) :
    (insertBySamples key r l).length = l.length + 1 := by
  induction l with
  | nil => rfl
  | cons x xs ih =>
    simp only [insertBySamples]
    split
    · simp only [List.length_cons, ih]
    · rfl

/-- Membership through `insertBySamples`. -/
theorem mem_insertBySamples (key : α → JSNum) (r x : α) (l : List α) :
    x ∈ insertBySamples key r l ↔ x = r ∨ x ∈ l := by
  induction l with
  | nil => simp [insertBySamples]
  | cons y ys ih =>
    simp only [insertBySamples]
    split
    · simp only [List.mem_cons, ih]
      tauto
    · simp only [List.mem_cons]

/-- The descending-by-samples sort preserves length. -/
theorem sortBySamplesDesc_length (key : α → JSNum) (l : List α) :
    (sortBySamplesDesc key l).length = l.length := by
  induction l with
  | nil => rfl
  | cons x xs ih =>
    simp only [sortBySamplesDesc, List.foldr_cons] at *
    rw [insertBySamples_length, ih, List.length_cons]

/-- The descending-by-samples sort preserves membership. -/
theorem mem_sortBySamplesDesc (key : α → JSNum) (x : α) (l : List α) :
    x ∈ sortBySamplesDesc key l ↔ x ∈ l := by
  induction l with
  | nil => simp [sortBySamplesDesc]
  | cons y ys ih =>
    simp only [sortBySamplesDesc, List.foldr_cons] at *
    rw [mem_insertBySamples, ih, List.mem_cons]

/-- **C6** (corrected: the claim holds for every cutoff `d ≥ 1`, but fails at
the finite cutoff `d = 0`, where the check `depth === maxDepth - 1` never
fires — see the counterexample).  In the TreeView layout engine with cutoff
`maxD ≥ 1`, on a well-formed tree: every branch record has depth `< maxD`;
every leaf record comes from a true leaf strictly below the cutoff
(`depth + 1 < maxD`); every bunch record sits exactly at the cutoff
(`depth + 1 = maxD`) and carries its node's `samples`; and leaf and bunch
records together number exactly one per truncated subtree. -/
theorem c6_depth_truncation (sn cn : JSNum → JSNum) (totalSamples : JSNum) (maxD : ℕ)
    (w h trunk maxSF minB : JSNum) (t : PTree) (out : LayoutOut)
    (hwf : PTree.wfB t = true) (hd : 1 ≤ maxD)
    (hok : generateTreeElementsTV sn cn totalSamples maxD w h trunk maxSF minB t = .ok out) :
    (∀ r ∈ out.branches, r.geom.depth < maxD) ∧
    (∀ r ∈ out.leafs, r.depth + 1 < maxD) ∧
    (∀ r ∈ out.bunches, r.geom.depth + 1 = maxD ∧ r.samples = r.node.samples) ∧
    out.leafs.length + out.bunches.length = countStops maxD 0 t := by
  simp only [generateTreeElementsTV] at hok
  split at hok
  · exact Except.noConfusion hok
  next bs ls us hb =>
    injection hok with hok
    subst hok
    obtain ⟨h1, h2, h3, h4⟩ := branchTV_depths sn cn maxD maxSF minB (PTree.count t) t
      (Nat.le_refl _) hwf _ _ _ _ hb (show 0 < maxD by omega)
    refine ⟨h1, ?_, ?_, ?_⟩
    · intro r hr
      exact h2 r ((mem_sortBySamplesDesc _ _ _).mp hr)
    · intro r hr
      exact h3 r ((mem_sortBySamplesDesc _ _ _).mp hr)
    · show (sortBySamplesDesc LeafRec.samples ls).length +
        (sortBySamplesDesc BunchRec.samples us).length = countStops maxD 0 t
      rw [sortBySamplesDesc_length, sortBySamplesDesc_length]
      exact h4

/-- **C6, counterexample.**  At the finite cutoff `d = 0` the check
`depth === maxDepth - 1` compares against `-1` and never fires, so the
recursion runs to full depth: on the three-node example tree the branch
records are at depths 0, 1, 1 — and `0 ≥ d`, refuting "no branch, leaf, or
bunch record in the output has depth ≥ d" for every finite `d`. -/
theorem c6_counterexample :
    ((generateTreeElementsTV (fun _ => .num 0) (fun _ => .num 0) (.num 10) 0
        (.num 800) (.num 800) (.num 100) (.num (mkRat 9 10)) (.num 4) exPTree).map
      fun out => out.branches.map fun r => r.geom.depth) = .ok [0, 1, 1] ∧
    ¬ (0 : ℕ) < 0 :=
  ⟨by decide, by decide⟩

/-- **C6, witness.**  With cutoff `maxD = 1` on the three-node example tree
the theorem applies: the root stops immediately, so leaf and bunch records
together number `countStops 1 0 exPTree = 1`. -/
theorem c6_depth_truncation_witness :
    ((generateTreeElementsTV (fun _ => .num 0) (fun _ => .num 0) (.num 10) 1
        (.num 800) (.num 800) (.num 100) (.num (mkRat 9 10)) (.num 4) exPTree).map
      fun out => out.leafs.length + out.bunches.length) = .ok (countStops 1 0 exPTree) := by
  cases hok : generateTreeElementsTV (fun _ => .num 0) (fun _ => .num 0) (.num 10) 1
      (.num 800) (.num 800) (.num 100) (.num (mkRat 9 10)) (.num 4) exPTree with
  | error e =>
    have hsome : (generateTreeElementsTV (fun _ => .num 0) (fun _ => .num 0) (.num 10) 1
        (.num 800) (.num 800) (.num 100) (.num (mkRat 9 10)) (.num 4) exPTree).toOption.isSome =
        true := by decide
    rw [hok] at hsome
    exact Bool.noConfusion hsome
  | ok out =>
    have h := (c6_depth_truncation (fun _ => .num 0) (fun _ => .num 0) (.num 10) 1
      (.num 800) (.num 800) (.num 100) (.num (mkRat 9 10)) (.num 4) exPTree out
      (by decide) (by decide) hok).2.2.2
    simp only [Except.map, h]

/-! ## C9 — layout safety and minimum-size degradation -/

/-- `Math.max` of a rational against the rational floor `mb` is a rational
at least `mb`. -/
theorem jmax_num_ge (x mb : ℚ) : ∃ q, (JSNum.num x).jmax (.num mb) = .num q ∧ mb ≤ q := by
  have h : (JSNum.num x).jmax (.num mb) =
      if JSNum.ltb (.num x) (.num mb) then JSNum.num mb else JSNum.num x := rfl
  rw [h]
  by_cases hlt : x < mb
  · rw [if_pos (by simpa [JSNum.ltb] using hlt)]
    exact ⟨mb, rfl, le_refl mb⟩
  · rw [if_neg (by simpa [JSNum.ltb] using hlt)]
    exact ⟨x, rfl, le_of_not_lt hlt⟩

/-- With nonzero parent samples and rational parameters, the TreeView child
length formula yields a rational at least `minBranchLength`. -/
theorem minlen_step (cq pq msf lq mb : ℚ) (hp : pq ≠ 0) :
    ∃ q, ((((JSNum.num cq).div (.num pq)).jmin (.num msf)).mul (.num lq)).jmax (.num mb)
      = .num q ∧ mb ≤ q := by
  have hdiv : (JSNum.num cq).div (.num pq) = .num (ratDiv cq pq) := by
    simp only [JSNum.div, if_neg hp]
  rw [hdiv]
  have hmin : (JSNum.num (ratDiv cq pq)).jmin (.num msf) =
      if JSNum.ltb (.num msf) (.num (ratDiv cq pq)) then JSNum.num msf
      else JSNum.num (ratDiv cq pq) := rfl
  rw [hmin]
  split
  · have hmul : (JSNum.num msf).mul (.num lq) = .num (ratMul msf lq) := rfl
    rw [hmul]
    exact jmax_num_ge _ _
  · have hmul : (JSNum.num (ratDiv cq pq)).mul (.num lq) =
        .num (ratMul (ratDiv cq pq) lq) := rfl
    rw [hmul]
    exact jmax_num_ge _ _

/-- Every member of a positive-samples list of subtrees is a
positive-samples tree. -/
theorem posSamplesBList_mem : ∀ {cs : List PTree}, PTree.posSamplesBList cs = true →
    ∀ c ∈ cs, PTree.posSamplesB c = true := by
  intro cs
  induction cs with
  | nil =>
    intro _ c hc
    simp at hc
  | cons d ds ihl =>
    intro h c hc
    simp only [PTree.posSamplesBList, Bool.and_eq_true] at h
    rcases List.mem_cons.mp hc with rfl | hc
    · exact h.1
    · exact ihl h.2 c hc

/-- A positive-samples tree has positive rational root `samples`. -/
theorem posSamples_samples {t : PTree} (h : PTree.posSamplesB t = true) :
    ∃ q, PTree.samples t = .num q ∧ 0 < q := by
  cases t with
  | leaf li =>
    simp only [PTree.posSamplesB] at h
    cases hs : li.samples with
    | num q =>
      rw [hs] at h
      exact ⟨q, hs, by simpa using h⟩
    | nan =>
      rw [hs] at h
      exact absurd h (by decide)
    | posInf =>
      rw [hs] at h
      exact absurd h (by decide)
    | negInf =>
      rw [hs] at h
      exact absurd h (by decide)
  | node ii cs =>
    simp only [PTree.posSamplesB, Bool.and_eq_true] at h
    have h1 := h.1
    cases hs : ii.samples with
    | num q =>
      rw [hs] at h1
      exact ⟨q, hs, by simpa using h1⟩
    | nan =>
      rw [hs] at h1
      exact absurd h1 (by decide)
    | posInf =>
      rw [hs] at h1
      exact absurd h1 (by decide)
    | negInf =>
      rw [hs] at h1
      exact absurd h1 (by decide)

/-- Unpacking `posSamplesB` at an internal node. -/
theorem posSamplesB_node {ii : IntInfo} {cs : List PTree}
    (h : PTree.posSamplesB (.node ii cs) = true) :
    (∃ q, ii.samples = .num q ∧ 0 < q) ∧ ∀ c ∈ cs, PTree.posSamplesB c = true := by
  simp only [PTree.posSamplesB, Bool.and_eq_true] at h
  refine ⟨?_, posSamplesBList_mem h.2⟩
  have h1 := h.1
  cases hs : ii.samples with
  | num q =>
    rw [hs] at h1
    exact ⟨q, rfl, by simpa using h1⟩
  | nan =>
    rw [hs] at h1
    exact absurd h1 (by decide)
  | posInf =>
    rw [hs] at h1
    exact absurd h1 (by decide)
  | negInf =>
    rw [hs] at h1
    exact absurd h1 (by decide)

/-- On a positive-samples tree the TreeView recursion, started with a
rational length, produces only rational branch lengths, and every non-root
record's length is at least `minBranchLength`. -/
theorem branchTV_minlen (sn cn : JSNum → JSNum) (maxD : ℕ) (msf mb : ℚ) :
    ∀ (n : ℕ) (t : PTree), PTree.count t ≤ n → PTree.posSamplesB t = true →
      ∀ g bs ls us, branchTV sn cn maxD (.num msf) (.num mb) t g = .ok (bs, ls, us) →
      (∃ lq, g.length = .num lq) →
      (bs.head? = some ⟨t, g⟩ ∧
       (∀ r ∈ bs, ∃ q, r.geom.length = .num q) ∧
       (∀ r ∈ bs.drop 1, ∃ q, r.geom.length = .num q ∧ mb ≤ q)) := by
  intro n
  induction n with
  | zero =>
    intro t hc
    exact absurd (Nat.le_trans (PTree.count_pos t) hc) (by omega)
  | succ n ih =>
    intro t hc hpos g bs ls us h hg
    cases t with
    | leaf li =>
      simp only [branchTV] at h
      split at h <;>
      · injection h with h
        simp only [Prod.mk.injEq] at h
        obtain ⟨rfl, rfl, rfl⟩ := h
        refine ⟨rfl, ?_, ?_⟩
        · intro r hr
          rw [List.mem_singleton.mp hr]
          exact hg
        · intro r hr
          simp at hr
    | node ii cs =>
      rcases cs with _ | ⟨c0, _ | ⟨c1, rest⟩⟩
      · simp only [branchTV] at h
        split at h
        · injection h with h
          simp only [Prod.mk.injEq] at h
          obtain ⟨rfl, rfl, rfl⟩ := h
          refine ⟨rfl, ?_, ?_⟩
          · intro r hr
            rw [List.mem_singleton.mp hr]
            exact hg
          · intro r hr
            simp at hr
        · exact Except.noConfusion h
      · simp only [branchTV] at h
        split at h
        · injection h with h
          simp only [Prod.mk.injEq] at h
          obtain ⟨rfl, rfl, rfl⟩ := h
          refine ⟨rfl, ?_, ?_⟩
          · intro r hr
            rw [List.mem_singleton.mp hr]
            exact hg
          · intro r hr
            simp at hr
        · exact Except.noConfusion h
      · obtain ⟨⟨pq, hpq, hpqpos⟩, hmem⟩ := posSamplesB_node hpos
        simp only [branchTV] at h
        split at h
        · injection h with h
          simp only [Prod.mk.injEq] at h
          obtain ⟨rfl, rfl, rfl⟩ := h
          refine ⟨rfl, ?_, ?_⟩
          · intro r hr
            rw [List.mem_singleton.mp hr]
            exact hg
          · intro r hr
            simp at hr
        · split at h
          · exact Except.noConfusion h
          next b0 l0 u0 hr0 =>
            split at h
            · exact Except.noConfusion h
            next b1 l1 u1 hr1 =>
              injection h with h
              simp only [Prod.mk.injEq] at h
              obtain ⟨rfl, rfl, rfl⟩ := h
              have hcp0 := PTree.count_pos c0
              have hcp1 := PTree.count_pos c1
              simp only [PTree.count, PTree.countList] at hc
              have hpos0 := hmem c0 (List.mem_cons_self _ _)
              have hpos1 := hmem c1 (List.mem_cons_of_mem _ (List.mem_cons_self _ _))
              obtain ⟨cq0, hcq0, hcq0pos⟩ := posSamples_samples hpos0
              obtain ⟨cq1, hcq1, hcq1pos⟩ := posSamples_samples hpos1
              obtain ⟨lg, hlg⟩ := hg
              obtain ⟨q0, heq0, hge0⟩ := minlen_step cq0 pq msf lg mb (ne_of_gt hpqpos)
              obtain ⟨q1, heq1, hge1⟩ := minlen_step cq1 pq msf lg mb (ne_of_gt hpqpos)
              have hL0 : ((((PTree.samples c0).div ii.samples).jmin (.num msf)).mul
                  g.length).jmax (.num mb) = .num q0 := by
                rw [hcq0, hpq, hlg]
                exact heq0
              have hL1 : ((((PTree.samples c1).div ii.samples).jmin (.num msf)).mul
                  g.length).jmax (.num mb) = .num q1 := by
                rw [hcq1, hpq, hlg]
                exact heq1
              obtain ⟨hh0, hall0, hdrop0⟩ := ih c0 (by omega) hpos0 _ _ _ _ hr0 ⟨q0, hL0⟩
              obtain ⟨hh1, hall1, hdrop1⟩ := ih c1 (by omega) hpos1 _ _ _ _ hr1 ⟨q1, hL1⟩
              refine ⟨rfl, ?_, ?_⟩
              · intro r hr
                rcases List.mem_cons.mp hr with rfl | hr
                · exact ⟨lg, hlg⟩
                · rcases List.mem_append.mp hr with hr | hr
                  · exact hall0 r hr
                  · exact hall1 r hr
              · intro r hr
                rw [List.drop_one, List.tail_cons] at hr
                rcases List.mem_append.mp hr with hr | hr
                · cases b0 with
                  | nil => exact absurd hh0 (by simp)
                  | cons hd0 tb0 =>
                    injection hh0 with hh0
                    subst hh0
                    rcases List.mem_cons.mp hr with rfl | hr
                    · exact ⟨q0, hL0, hge0⟩
                    · exact hdrop0 r (by simpa using hr)
                · cases b1 with
                  | nil => exact absurd hh1 (by simp)
                  | cons hd1 tb1 =>
                    injection hh1 with hh1
                    subst hh1
                    rcases List.mem_cons.mp hr with rfl | hr
                    · exact ⟨q1, hL1, hge1⟩
                    · exact hdrop1 r (by simpa using hr)

/-- **C9** (corrected).  On every well-formed tree the TreeView layout never
raises — with any numerics, including zero samples and a single-leaf tree —
and when every node's `samples` is a positive finite count and the trunk,
shortening-factor and minimum-length parameters are finite, every non-root
branch record's length is a rational at least `minBranchLength`.  But on the
claimed edge case `samples = 0` the ratio is `0/0 = NaN` and the produced
lengths are `NaN`, which is not `>= minBranchLength` — see the
counterexample. -/
theorem c9_layout_safety (sn cn : JSNum → JSNum) (totalSamples : JSNum) (maxD : ℕ)
    (w h : JSNum) (trunk msf mb : ℚ) (t : PTree) (hwf : PTree.wfB t = true) :
    (∃ out, generateTreeElementsTV sn cn totalSamples maxD w h (.num trunk) (.num msf)
        (.num mb) t = .ok out) ∧
    (PTree.posSamplesB t = true →
      ∀ out, generateTreeElementsTV sn cn totalSamples maxD w h (.num trunk) (.num msf)
          (.num mb) t = .ok out →
        ∀ r ∈ out.branches.drop 1, ∃ q, r.geom.length = .num q ∧ mb ≤ q) := by
  constructor
  · obtain ⟨o, ho⟩ := branchTV_ok sn cn maxD (.num msf) (.num mb) (PTree.count t) t
      (Nat.le_refl _) hwf (addBranchInformation sn cn (w.div 2) h 0 (.num trunk) 0)
    obtain ⟨bs, ls, us⟩ := o
    exact ⟨_, by simp only [generateTreeElementsTV]; rw [ho]⟩
  · intro hpos out hok r hr
    simp only [generateTreeElementsTV] at hok
    split at hok
    · exact Except.noConfusion hok
    next bs ls us hb =>
      injection hok with hok
      subst hok
      have hlen : (addBranchInformation sn cn (w.div 2) h 0 (.num trunk) 0).length =
          .num trunk := rfl
      obtain ⟨_, _, h2⟩ := branchTV_minlen sn cn maxD msf mb (PTree.count t) t
        (Nat.le_refl _) hpos _ _ _ _ hb ⟨trunk, hlen⟩
      exact h2 r hr

/-- **C9, counterexample.**  On a well-formed tree whose root has
`samples = 0` the layout terminates normally, but the child ratio `0/0` is
`NaN`, so both child branch records have length `NaN` — and `NaN >= 4`
(the configured minimum) is false: the geometry does not degrade to the
minimum size. -/
theorem c9_counterexample :
    ((generateTreeElementsTV (fun _ => .num 0) (fun _ => .num 0) (.num 0) 0
        (.num 800) (.num 800) (.num 100) (.num (mkRat 9 10)) (.num 4) exPTreeZero).map
      fun out => out.branches.map fun r => r.geom.length) =
      .ok [.num 100, .nan, .nan] ∧
    JSNum.geb .nan (.num 4) = false :=
  ⟨by decide, by decide⟩

/-- **C9, witness.**  The no-crash part of the theorem applied to the
three-node example tree. -/
theorem c9_layout_safety_witness :
    ∃ out, generateTreeElementsTV (fun _ => .num 0) (fun _ => .num 0) (.num 10) 0
      (.num 800) (.num 800) (.num 100) (.num (mkRat 9 10)) (.num 4) exPTree = .ok out :=
  (c9_layout_safety (fun _ => .num 0) (fun _ => .num 0) (.num 10) 0 (.num 800) (.num 800)
    100 (mkRat 9 10) 4 exPTree (by decide)).1

/-! ## C10 — the exactly-two-children assumption of layout and highlighter -/

/-- The TreeView layout recursion only ever fails with a `TypeError`. -/
theorem branchTV_err_type (sn cn : JSNum → JSNum) (maxD : ℕ) (maxSF minB : JSNum) :
    ∀ (n : ℕ) (t : PTree), PTree.count t ≤ n → ∀ g e,
      branchTV sn cn maxD maxSF minB t g = .error e → e = .typeError := by
  intro n
  induction n with
  | zero =>
    intro t hc
    exact absurd (Nat.le_trans (PTree.count_pos t) hc) (by omega)
  | succ n ih =>
    intro t hc g e h
    cases t with
    | leaf li =>
      simp only [branchTV] at h
      split at h <;> exact Except.noConfusion h
    | node ii cs =>
      rcases cs with _ | ⟨c0, _ | ⟨c1, rest⟩⟩
      · simp only [branchTV] at h
        split at h
        · exact Except.noConfusion h
        · injection h with h
          exact h.symm
      · simp only [branchTV] at h
        split at h
        · exact Except.noConfusion h
        · injection h with h
          exact h.symm
      · simp only [branchTV] at h
        split at h
        · exact Except.noConfusion h
        · have hcp0 := PTree.count_pos c0
          have hcp1 := PTree.count_pos c1
          simp only [PTree.count, PTree.countList] at hc
          split at h
          next e0 he0 =>
            injection h with h
            subst h
            exact ih c0 (by omega) _ _ he0
          next b0 l0 u0 hr0 =>
            split at h
            next e1 he1 =>
              injection h with h
              subst h
              exact ih c1 (by omega) _ _ he1
            next => exact Except.noConfusion h

/-- With the default (infinite) depth cutoff, a tree whose internal nodes
all have at most two children but that contains a unary internal node makes
the TreeView layout recursion fail with a `TypeError`: every node is
reachable through `children[0]`/`children[1]`, and at the unary node the
code reads the missing `children[1].samples`. -/
theorem branchTV_unary_crash (sn cn : JSNum → JSNum) (maxSF minB : JSNum) :
    ∀ (n : ℕ) (t : PTree), PTree.count t ≤ n → PTree.le2B t = true →
      PTree.hasUnaryB t = true → ∀ g,
      branchTV sn cn 0 maxSF minB t g = .error .typeError := by
  intro n
  induction n with
  | zero =>
    intro t hc
    exact absurd (Nat.le_trans (PTree.count_pos t) hc) (by omega)
  | succ n ih =>
    intro t hc hle hun g
    cases t with
    | leaf li =>
      exact absurd hun (by simp [PTree.hasUnaryB])
    | node ii cs =>
      have hcut : ¬ (g.depth + 1 = 0) := by omega
      rcases cs with _ | ⟨c0, _ | ⟨c1, rest⟩⟩
      · simp only [branchTV]
        rw [if_neg hcut]
      · simp only [branchTV]
        rw [if_neg hcut]
      · simp only [PTree.le2B, Bool.and_eq_true, decide_eq_true_eq] at hle
        obtain ⟨hlen, hlist⟩ := hle
        have hrest : rest = [] := by
          simp only [List.length_cons] at hlen
          exact List.eq_nil_of_length_eq_zero (by omega)
        subst hrest
        simp only [PTree.le2BList, Bool.and_eq_true] at hlist
        have h01 : PTree.hasUnaryB c0 = true ∨ PTree.hasUnaryB c1 = true := by
          simp only [PTree.hasUnaryB, PTree.hasUnaryBList, Bool.or_eq_true] at hun
          rcases hun with hbad | h0 | h1 | hfalse
          · exact absurd hbad (by simp)
          · exact Or.inl h0
          · exact Or.inr h1
          · exact Bool.noConfusion hfalse
        have hcp0 := PTree.count_pos c0
        have hcp1 := PTree.count_pos c1
        simp only [PTree.count, PTree.countList] at hc
        rcases h01 with h0 | h1
        · have hcrash := ih c0 (by omega) hlist.1 h0
            (addBranchInformation sn cn g.x2 g.y2
              (g.angle.sub (((c0.samples.div ii.samples)).sub 1).jabs)
              ((((c0.samples.div ii.samples)).jmin maxSF).mul g.length |>.jmax minB)
              (g.depth + 1))
          simp only [branchTV]
          rw [if_neg hcut, hcrash]
        · cases hc0 : branchTV sn cn 0 maxSF minB c0
              (addBranchInformation sn cn g.x2 g.y2
                (g.angle.sub (((c0.samples.div ii.samples)).sub 1).jabs)
                ((((c0.samples.div ii.samples)).jmin maxSF).mul g.length |>.jmax minB)
                (g.depth + 1)) with
          | error e =>
            have he := branchTV_err_type sn cn 0 maxSF minB (PTree.count c0) c0
              (Nat.le_refl _) _ _ hc0
            subst he
            simp only [branchTV]
            rw [if_neg hcut, hc0]
          | ok o0 =>
            obtain ⟨b0, l0, u0⟩ := o0
            have hcrash := ih c1 (by omega) hlist.2.1 h1
              (addBranchInformation sn cn g.x2 g.y2
                (g.angle.add (((c1.samples.div ii.samples)).sub 1).jabs)
                ((((c1.samples.div ii.samples)).jmin maxSF).mul g.length |>.jmax minB)
                (g.depth + 1))
            simp only [branchTV]
            rw [if_neg hcut, hc0, hcrash]

/-- **C10** (corrected).  The exactly-two-children assumption is real: with
the default (infinite) depth cutoff, on any tree whose internal nodes have
at most two children but that contains a unary internal node, the TreeView
layout fails with a `TypeError`; and on the parsed two-record file with
depth sequence `[0, 1]` (a unary root) `markPathElements` fails with a
`TypeError` — the walk applies the reset function to the missing
`children[1]` with no undefined guard.  But the universally quantified
claim is false: a parsed tree can hide a unary internal node as a third
child, which neither engine ever visits — see the counterexample. -/
theorem c10_binary_assumption (sn cn : JSNum → JSNum)
    (totalSamples w h trunk maxSF minB : JSNum) (t : PTree)
    (hle : PTree.le2B t = true) (hun : PTree.hasUnaryB t = true) :
    generateTreeElementsTV sn cn totalSamples 0 w h trunk maxSF minB t =
      .error .typeError ∧
    ((parseStatisticsContent exTreeTwo).map fun a =>
        (arenaHasUnary a, exceptErr (markPathElements [] a))) =
      .ok (true, some .typeError) := by
  refine ⟨?_, by decide⟩
  have hcrash := branchTV_unary_crash sn cn maxSF minB (PTree.count t) t (Nat.le_refl _)
    hle hun (addBranchInformation sn cn (w.div 2) h 0 trunk 0)
  simp only [generateTreeElementsTV]
  rw [hcrash]

/-- **C10, counterexample.**  The five-record file with depth sequence
`[0, 1, 1, 1, 2]` parses successfully into a tree containing a unary
internal node (the root's third child, with one leaf below it) — yet both
`markPathElements` and the TreeView layout succeed, because the engines
only ever read `children[0]` and `children[1]` and never visit the hidden
third child.  This refutes "for every parsed tree containing an
InternalNode with exactly one child, generateTreeElements and
markPathElements throw a TypeError". -/
theorem c10_counterexample :
    ((parseStatisticsContent exTreeHidden).map fun a =>
      (arenaHasUnary a,
       (markPathElements [] a).toOption.isSome,
       (arenaToPTree a (a.length + 1) 0).map fun t =>
         (generateTreeElementsTV (fun _ => .num 0) (fun _ => .num 0) (.num 10) 0
           (.num 800) (.num 800) (.num 100) (.num (mkRat 9 10)) (.num 4) t).toOption.isSome))
      = .ok (true, true, some true) := by
  decide

/-- **C10, witness.**  The theorem applied to a unary-root tree: the layout
fails with a `TypeError`. -/
theorem c10_binary_assumption_witness :
    generateTreeElementsTV (fun _ => .num 0) (fun _ => .num 0) (.num 10) 0 (.num 800)
      (.num 800) (.num 100) (.num (mkRat 9 10)) (.num 4)
      (.node ⟨.num 10, .num 0, .nan, false⟩ [.leaf exLeafA]) = .error .typeError :=
  (c10_binary_assumption (fun _ => .num 0) (fun _ => .num 0) (.num 10) (.num 800)
    (.num 800) (.num 100) (.num (mkRat 9 10)) (.num 4)
    (.node ⟨.num 10, .num 0, .nan, false⟩ [.leaf exLeafA])
    (by decide) (by decide)).1

/-! ## C7 — the path highlighter -/

/-- Entries of the flag-erased arena. -/
theorem clearFlags_get? (a : List PNode) (j : ℕ) :
    (clearFlags a).get? j = (a.get? j).map fun nd => { nd with selectedPathElement := false } := by
  simp [clearFlags]

/-- Erasing flags preserves length. -/
theorem clearFlags_length (a : List PNode) : (clearFlags a).length = a.length := by
  simp [clearFlags]

/-- Arenas with the same flag-erased form agree on length and on every
structural field. -/
theorem clearFlags_fields {b a : List PNode} (h : clearFlags b = clearFlags a) :
    b.length = a.length ∧ ∀ j,
      (b.getD j default).isLeaf = (a.getD j default).isLeaf ∧
      (b.getD j default).children = (a.getD j default).children ∧
      (b.getD j default).parent = (a.getD j default).parent ∧
      (b.getD j default).leafId = (a.getD j default).leafId := by
  have hlen : b.length = a.length := by
    have := congrArg List.length h
    simpa [clearFlags_length] using this
  refine ⟨hlen, fun j => ?_⟩
  have hj := congrArg (fun l => List.get? l j) h
  simp only [clearFlags_get?] at hj
  by_cases hlt : j < b.length
  · have hnb : b.get? j = some (b.get ⟨j, hlt⟩) := List.get?_eq_get hlt
    have hna : a.get? j = some (a.get ⟨j, hlen ▸ hlt⟩) := List.get?_eq_get (hlen ▸ hlt)
    rw [hnb, hna] at hj
    simp only [Option.map_some'] at hj
    injection hj with hj
    have hb' : b.getD j default = b.get ⟨j, hlt⟩ := by
      rw [List.getD_eq_get?, hnb]
      rfl
    have ha' : a.getD j default = a.get ⟨j, hlen ▸ hlt⟩ := by
      rw [List.getD_eq_get?, hna]
      rfl
    rw [hb', ha']
    have h1 := congrArg PNode.isLeaf hj
    have h2 := congrArg PNode.children hj
    have h3 := congrArg PNode.parent hj
    have h4 := congrArg PNode.leafId hj
    exact ⟨h1, h2, h3, h4⟩
  · have hb' : b.getD j default = default := by
      rw [List.getD_eq_get?, List.get?_eq_none.mpr (by omega)]
      rfl
    have ha' : a.getD j default = default := by
      rw [List.getD_eq_get?, List.get?_eq_none.mpr (by omega)]
      rfl
    rw [hb', ha']
    exact ⟨rfl, rfl, rfl, rfl⟩

/-- Setting only the flag of one node does not change the flag-erased
arena. -/
theorem clearFlags_set_flag {b : List PNode} {i : ℕ} {nd : PNode} (v : Bool)
    (h : b.get? i = some nd) :
    clearFlags (b.set i { nd with selectedPathElement := v }) = clearFlags b := by
  obtain ⟨hi, _⟩ := List.get?_eq_some.mp h
  apply List.ext_get?
  intro j
  rw [clearFlags_get?, clearFlags_get?]
  by_cases hj : j = i
  · subst hj
    rw [List.get?_set_eq_of_lt _ hi, h]
    rfl
  · rw [List.get?_set_ne _ _ (fun hne => hj hne.symm)]

/-- Two nodes that agree after flag erasure and agree on the flag are
equal. -/
theorem pnode_eq_of {nx ny : PNode}
    (h1 : ({ nx with selectedPathElement := false } : PNode) =
          { ny with selectedPathElement := false })
    (h2 : nx.selectedPathElement = ny.selectedPathElement) : nx = ny := by
  cases nx
  cases ny
  simp only [PNode.mk.injEq, and_true] at h1
  simp only [PNode.mk.injEq]
  exact ⟨h1.1, h1.2.1, h1.2.2.1, h1.2.2.2.1, h1.2.2.2.2.1, h1.2.2.2.2.2.1,
    h1.2.2.2.2.2.2.1, h1.2.2.2.2.2.2.2.1, h1.2.2.2.2.2.2.2.2.1,
    h1.2.2.2.2.2.2.2.2.2.1, h1.2.2.2.2.2.2.2.2.2.2, h2⟩

/-- Two arenas with the same flag-erased form and the same flags are
equal. -/
theorem arena_eq_of {x y : List PNode} (hc : clearFlags x = clearFlags y)
    (hf : ∀ j, (x.getD j default).selectedPathElement =
               (y.getD j default).selectedPathElement) : x = y := by
  have hlen : x.length = y.length := by
    have := congrArg List.length hc
    simpa [clearFlags_length] using this
  apply List.ext_get?
  intro j
  by_cases hlt : j < x.length
  · have hx : x.get? j = some (x.get ⟨j, hlt⟩) := List.get?_eq_get hlt
    have hy : y.get? j = some (y.get ⟨j, hlen ▸ hlt⟩) := List.get?_eq_get (hlen ▸ hlt)
    have hj := congrArg (fun l => List.get? l j) hc
    simp only [clearFlags_get?] at hj
    rw [hx, hy] at hj
    simp only [Option.map_some'] at hj
    injection hj with hj
    have hx' : x.getD j default = x.get ⟨j, hlt⟩ := by
      rw [List.getD_eq_get?, hx]
      rfl
    have hy' : y.getD j default = y.get ⟨j, hlen ▸ hlt⟩ := by
      rw [List.getD_eq_get?, hy]
      rfl
    have hfj := hf j
    rw [hx', hy'] at hfj
    rw [hx, hy, pnode_eq_of hj hfj]
  · rw [List.get?_eq_none.mpr (by omega), List.get?_eq_none.mpr (by omega)]

/-- The per-node conjunction of the arena well-formedness checker. -/
theorem wfArena_at {e : Bool} {a : List PNode} (hwf : wfArenaWith e a = true) {j : ℕ}
    (hj : j < a.length) :
    ((∀ c ∈ (a.getD j default).children,
        (j < c ∧ c < a.length) ∧ (a.getD c default).parent = some j) ∧
      (if (a.getD j default).isLeaf = true then (a.getD j default).children = []
       else if e = true then (a.getD j default).children.length = 2
       else (a.getD j default).children.length ≤ 2)) ∧
    (j = 0 ∨ (match (a.getD j default).parent with
       | some p => decide (p < j) && decide (j ∈ (a.getD p default).children)
       | none => false) = true) := by
  simp only [wfArenaWith, Bool.and_eq_true, List.all_eq_true] at hwf
  have := hwf.2 j (List.mem_range.mpr hj)
  simpa [Bool.and_eq_true, Bool.and_assoc] using this

/-- Child facts of a well-formed arena. -/
theorem wfArena_children {e : Bool} {a : List PNode} (hwf : wfArenaWith e a = true) {j : ℕ}
    (hj : j < a.length) {c : ℕ} (hc : c ∈ (a.getD j default).children) :
    j < c ∧ c < a.length ∧ (a.getD c default).parent = some j := by
  have h := (wfArena_at hwf hj).1.1 c hc
  exact ⟨h.1.1, h.1.2, h.2⟩

/-- In a well-formed arena, leaves are childless. -/
theorem wfArena_leaf {e : Bool} {a : List PNode} (hwf : wfArenaWith e a = true) {j : ℕ}
    (hj : j < a.length) (hl : (a.getD j default).isLeaf = true) :
    (a.getD j default).children = [] := by
  have h := (wfArena_at hwf hj).1.2
  rw [if_pos hl] at h
  exact h

/-- In a well-formed binary arena, internal nodes have exactly two
children. -/
theorem wfArena_internal {a : List PNode} (hwf : wfArena a = true) {j : ℕ}
    (hj : j < a.length) (hl : (a.getD j default).isLeaf = false) :
    (a.getD j default).children.length = 2 := by
  have h := (wfArena_at (e := true) hwf hj).1.2
  rw [if_neg (by rw [hl]; exact Bool.false_ne_true), if_pos rfl] at h
  exact h

/-- In a well-formed arena, every non-root node is a child of its
(lower-index) parent. -/
theorem wfArena_parent {e : Bool} {a : List PNode} (hwf : wfArenaWith e a = true) {j : ℕ}
    (hj : j < a.length) (hj0 : j ≠ 0) :
    ∃ p, (a.getD j default).parent = some p ∧ p < j ∧
      j ∈ (a.getD p default).children := by
  have h := (wfArena_at hwf hj).2
  rcases h with h0 | h0
  · exact absurd h0 hj0
  · cases hp : (a.getD j default).parent with
    | none =>
      rw [hp] at h0
      exact Bool.noConfusion h0
    | some p =>
      rw [hp] at h0
      simp only [Bool.and_eq_true, decide_eq_true_eq] at h0
      exact ⟨p, rfl, h0.1, h0.2⟩

/-- The root of a well-formed arena exists and has no parent. -/
theorem wfArena_root {e : Bool} {a : List PNode} (hwf : wfArenaWith e a = true) :
    0 < a.length ∧ (a.getD 0 default).parent = none := by
  simp only [wfArenaWith, Bool.and_eq_true, decide_eq_true_eq, beq_iff_eq] at hwf
  exact ⟨hwf.1.1, hwf.1.2⟩

/-- `getD` of an in-range index. -/
theorem get?_eq_getD {a : List PNode} {i : ℕ} (hi : i < a.length) :
    a.get? i = some (a.getD i default) := by
  rw [List.getD_eq_get?, List.get?_eq_get hi]
  rfl

/-- `getD` after `set` at the written index. -/
theorem getD_set_self {b : List PNode} {i : ℕ} (hi : i < b.length) (x : PNode) :
    (b.set i x).getD i default = x := by
  rw [List.getD_eq_get?, List.get?_set_eq_of_lt _ hi]
  rfl

/-- `getD` after `set` at another index. -/
theorem getD_set_other (b : List PNode) {i j : ℕ} (hij : i ≠ j) (x : PNode) :
    (b.set i x).getD j default = b.getD j default := by
  rw [List.getD_eq_get?, List.getD_eq_get?, List.get?_set_ne _ _ hij]

/-- A two-element list split. -/
theorem children_two {l : List ℕ} (h : l.length = 2) : ∃ c0 c1, l = [c0, c1] := by
  match l, h with
  | [c0, c1], _ => exact ⟨c0, c1, rfl⟩

/-- Reduction of `subtreeOf` at an in-range index. -/
theorem subtreeOf_succ {a : List PNode} {i : ℕ} (hi : i < a.length) (fuel : ℕ) :
    subtreeOf a (fuel + 1) i =
      if (a.getD i default).isLeaf then [i]
      else i :: ((match (a.getD i default).children.get? 0 with
                  | some c => subtreeOf a fuel c
                  | none => []) ++
                 (match (a.getD i default).children.get? 1 with
                  | some c => subtreeOf a fuel c
                  | none => [])) := by
  simp only [subtreeOf]
  rw [get?_eq_getD hi]

/-- A node is in its own subtree. -/
theorem subtreeOf_self {a : List PNode} {i : ℕ} (hi : i < a.length) (fuel : ℕ) :
    i ∈ subtreeOf a (fuel + 1) i := by
  rw [subtreeOf_succ hi]
  split
  · exact List.mem_singleton.mpr rfl
  · exact List.mem_cons_self _ _

/-- Reduction of `subtreeOf` at an internal node with two children. -/
theorem subtreeOf_node {a : List PNode} {i : ℕ} (hi : i < a.length)
    (hleaf : (a.getD i default).isLeaf = false) {c0 c1 : ℕ}
    (hch : (a.getD i default).children = [c0, c1]) (fuel : ℕ) :
    subtreeOf a (fuel + 1) i = i :: (subtreeOf a fuel c0 ++ subtreeOf a fuel c1) := by
  rw [subtreeOf_succ hi,
    if_neg (fun h => by rw [hleaf] at h; exact Bool.noConfusion h), hch]
  rfl

/-- In a well-formed arena, a child of an internal subtree member is a
subtree member (at one more fuel). -/
theorem subtreeOf_child {a : List PNode} (hwf : wfArena a = true) :
    ∀ (fuel : ℕ) (r p c : ℕ), p ∈ subtreeOf a fuel r →
      (a.getD p default).isLeaf = false → c ∈ (a.getD p default).children →
      c ∈ subtreeOf a (fuel + 1) r := by
  intro fuel
  induction fuel with
  | zero =>
    intro r p c hp
    exact absurd hp (List.not_mem_nil p)
  | succ fuel ih =>
    intro r p c hp hleaf hc
    by_cases hr : r < a.length
    case neg =>
      have hnone : a.get? r = none := List.get?_eq_none.mpr (by omega)
      simp only [subtreeOf] at hp
      rw [hnone] at hp
      exact absurd hp (List.not_mem_nil p)
    case pos =>
      cases hrleaf : (a.getD r default).isLeaf with
      | true =>
        rw [subtreeOf_succ hr, if_pos hrleaf] at hp
        have hpr : p = r := List.mem_singleton.mp hp
        subst hpr
        rw [hrleaf] at hleaf
        exact Bool.noConfusion hleaf
      | false =>
        rw [subtreeOf_succ hr, if_neg (by rw [hrleaf]; exact Bool.false_ne_true)] at hp
        rw [subtreeOf_succ hr, if_neg (by rw [hrleaf]; exact Bool.false_ne_true)]
        rcases List.mem_cons.mp hp with rfl | hp
        · obtain ⟨c0, c1, hch⟩ := children_two (wfArena_internal hwf hr hrleaf)
          rw [hch] at hc
          rw [hch]
          rcases List.mem_cons.mp hc with rfl | hc
          · obtain ⟨_, hclen, _⟩ := wfArena_children hwf hr (hch ▸ List.mem_cons_self _ _)
            exact List.mem_cons_of_mem _ (List.mem_append_left _ (subtreeOf_self hclen fuel))
          · have hcc1 : c = c1 := List.mem_singleton.mp hc
            subst hcc1
            obtain ⟨_, hclen, _⟩ := wfArena_children hwf hr
              (hch ▸ List.mem_cons_of_mem _ (List.mem_cons_self _ _))
            exact List.mem_cons_of_mem _ (List.mem_append_right _ (subtreeOf_self hclen fuel))
        · refine List.mem_cons_of_mem _ ?_
          rcases List.mem_append.mp hp with hp | hp
          · refine List.mem_append_left _ ?_
            cases hc0 : (a.getD r default).children.get? 0 with
            | none =>
              rw [hc0] at hp
              exact absurd hp (List.not_mem_nil p)
            | some d =>
              rw [hc0] at hp
              exact ih d p c hp hleaf hc
          · refine List.mem_append_right _ ?_
            cases hc1 : (a.getD r default).children.get? 1 with
            | none =>
              rw [hc1] at hp
              exact absurd hp (List.not_mem_nil p)
            | some d =>
              rw [hc1] at hp
              exact ih d p c hp hleaf hc

/-- In a well-formed binary arena every index is in the root's subtree. -/
theorem subtreeOf_all {a : List PNode} (hwf : wfArena a = true) :
    ∀ (j : ℕ), j < a.length → ∀ fuel, j + 1 ≤ fuel → j ∈ subtreeOf a fuel 0 := by
  intro j
  induction j using Nat.strong_induction_on with
  | _ j ihs =>
    intro hj fuel hfuel
    rcases Nat.eq_zero_or_pos j with rfl | hjpos
    · obtain ⟨fuel', rfl⟩ : ∃ f, fuel = f + 1 := ⟨fuel - 1, by omega⟩
      exact subtreeOf_self hj fuel'
    · obtain ⟨p, _, hplt, hmem⟩ := wfArena_parent hwf hj (by omega)
      have hpl : p < a.length := lt_trans hplt hj
      have hpleaf : (a.getD p default).isLeaf = false := by
        cases hplf : (a.getD p default).isLeaf with
        | false => rfl
        | true =>
          have hempty := wfArena_leaf hwf hpl hplf
          rw [hempty] at hmem
          exact absurd hmem (List.not_mem_nil j)
      obtain ⟨fuel', rfl⟩ : ∃ f, fuel = f + 1 := ⟨fuel - 1, by omega⟩
      have hpmem : p ∈ subtreeOf a fuel' 0 := ihs p hplt hpl fuel' (by omega)
      exact subtreeOf_child hwf fuel' 0 p j hpmem hpleaf hmem

/-- The reset walk on (a flag-variant of) a well-formed arena: it succeeds,
only flags change, and flags become `false` exactly on the subtree of the
start index. -/
theorem walkReset_spec {a : List PNode} (hwf : wfArena a = true) :
    ∀ (fuel : ℕ) (b : List PNode) (i : ℕ), clearFlags b = clearFlags a →
      i < a.length → a.length - i ≤ fuel →
      ∃ b1, walkReset b fuel (some i) = .ok b1 ∧ clearFlags b1 = clearFlags a ∧
        ∀ j, (b1.getD j default).selectedPathElement =
          if j ∈ subtreeOf a fuel i then false
          else (b.getD j default).selectedPathElement := by
  intro fuel
  induction fuel with
  | zero =>
    intro b i hb hi hfuel
    exact absurd hfuel (by omega)
  | succ fuel ih =>
    intro b i hb hi hfuel
    obtain ⟨hlen, hfields⟩ := clearFlags_fields hb
    have hib : i < b.length := by omega
    have hgb : b.get? i = some (b.getD i default) := get?_eq_getD hib
    have hbset := clearFlags_set_flag false hgb
    have hred : walkReset b (fuel + 1) (some i) =
        (if (b.getD i default).isLeaf then
          .ok (b.set i { b.getD i default with selectedPathElement := false })
         else
           match walkReset (b.set i { b.getD i default with selectedPathElement := false })
               fuel ((b.getD i default).children.get? 0) with
           | .error e => .error e
           | .ok a2 => walkReset a2 fuel ((b.getD i default).children.get? 1)) := by
      simp only [walkReset]
      rw [hgb]
    obtain ⟨hileaf, hich, _, _⟩ := hfields i
    cases haleaf : (a.getD i default).isLeaf with
    | true =>
      have hbleaf : (b.getD i default).isLeaf = true := by rw [hileaf, haleaf]
      refine ⟨b.set i { b.getD i default with selectedPathElement := false },
        ?_, ?_, ?_⟩
      · rw [hred, if_pos hbleaf]
      · rw [hbset, hb]
      · intro j
        rw [subtreeOf_succ hi, if_pos haleaf]
        by_cases hji : j = i
        · subst hji
          rw [getD_set_self hib, if_pos (List.mem_singleton.mpr rfl)]
        · rw [getD_set_other _ (fun h => hji h.symm),
            if_neg (fun h => hji (List.mem_singleton.mp h))]
    | false =>
      have hbleaf : (b.getD i default).isLeaf = false := by rw [hileaf, haleaf]
      have hnaleaf : ¬ ((a.getD i default).isLeaf = true) := fun h => by
        rw [haleaf] at h
        exact Bool.noConfusion h
      have hnbleaf : ¬ ((b.getD i default).isLeaf = true) := fun h => by
        rw [hbleaf] at h
        exact Bool.noConfusion h
      obtain ⟨c0, c1, hch⟩ := children_two (wfArena_internal hwf hi haleaf)
      have hbch : (b.getD i default).children = [c0, c1] := by rw [hich, hch]
      obtain ⟨hic0, hc0len, _⟩ := wfArena_children hwf hi (hch ▸ List.mem_cons_self _ _)
      obtain ⟨hic1, hc1len, _⟩ := wfArena_children hwf hi
        (hch ▸ List.mem_cons_of_mem _ (List.mem_cons_self _ _))
      have hb' : clearFlags (b.set i { b.getD i default with selectedPathElement := false }) =
          clearFlags a := by rw [hbset, hb]
      obtain ⟨b2, hw0, hb2, hf2⟩ := ih _ c0 hb' hc0len (by omega)
      obtain ⟨b3, hw1, hb3, hf3⟩ := ih b2 c1 hb2 hc1len (by omega)
      refine ⟨b3, ?_, hb3, ?_⟩
      · rw [hred, if_neg hnbleaf, hbch,
          show ([c0, c1] : List ℕ).get? 0 = some c0 from rfl,
          show ([c0, c1] : List ℕ).get? 1 = some c1 from rfl, hw0]
        exact hw1
      · intro j
        rw [hf3 j, hf2 j, subtreeOf_node hi haleaf hch fuel]
        by_cases hj1 : j ∈ subtreeOf a fuel c1
        · rw [if_pos hj1, if_pos (List.mem_cons_of_mem _ (List.mem_append_right _ hj1))]
        · rw [if_neg hj1]
          by_cases hj0 : j ∈ subtreeOf a fuel c0
          · rw [if_pos hj0, if_pos (List.mem_cons_of_mem _ (List.mem_append_left _ hj0))]
          · rw [if_neg hj0]
            by_cases hji : j = i
            · subst hji
              rw [getD_set_self hib, if_pos (List.mem_cons_self _ _)]
            · rw [getD_set_other _ (fun h => hji h.symm),
                if_neg (fun h => by
                  rcases List.mem_cons.mp h with rfl | h
                  · exact hji rfl
                  · rcases List.mem_append.mp h with h | h
                    · exact hj0 h
                    · exact hj1 h)]

/-- Reduction of `parentChain` at a node with a parent. -/
theorem parentChain_some {a : List PNode} {i p : ℕ}
    (hp : (a.getD i default).parent = some p) (fuel : ℕ) :
    parentChain a (fuel + 1) i = i :: parentChain a fuel p := by
  simp only [parentChain]
  rw [hp]

/-- Reduction of `parentChain` at the root. -/
theorem parentChain_none {a : List PNode} {i : ℕ}
    (hp : (a.getD i default).parent = none) (fuel : ℕ) :
    parentChain a (fuel + 1) i = [i] := by
  simp only [parentChain]
  rw [hp]

/-- The upward marking walk on (a flag-variant of) a well-formed arena: it
succeeds, only flags change, and flags become `true` exactly on the parent
chain of the start index. -/
theorem walkUpMark_spec {a : List PNode} (hwf : wfArena a = true) :
    ∀ (fuel : ℕ) (b : List PNode) (i : ℕ), clearFlags b = clearFlags a →
      i < a.length → i + 1 ≤ fuel →
      ∃ b1, walkUpMark b fuel i = .ok b1 ∧ clearFlags b1 = clearFlags a ∧
        ∀ j, (b1.getD j default).selectedPathElement =
          if j ∈ parentChain a fuel i then true
          else (b.getD j default).selectedPathElement := by
  intro fuel
  induction fuel with
  | zero =>
    intro b i hb hi hfuel
    exact absurd hfuel (by omega)
  | succ fuel ih =>
    intro b i hb hi hfuel
    obtain ⟨hlen, hfields⟩ := clearFlags_fields hb
    have hib : i < b.length := by omega
    have hgb : b.get? i = some (b.getD i default) := get?_eq_getD hib
    have hbset := clearFlags_set_flag true hgb
    have hb' : clearFlags (b.set i { b.getD i default with selectedPathElement := true }) =
        clearFlags a := by rw [hbset, hb]
    have hred : walkUpMark b (fuel + 1) i =
        (match (b.getD i default).parent with
         | some p =>
           walkUpMark (b.set i { b.getD i default with selectedPathElement := true }) fuel p
         | none => .ok (b.set i { b.getD i default with selectedPathElement := true })) := by
      simp only [walkUpMark]
      rw [hgb]
    obtain ⟨_, _, hipar, _⟩ := hfields i
    cases hpar : (a.getD i default).parent with
    | none =>
      have hbpar : (b.getD i default).parent = none := by rw [hipar, hpar]
      refine ⟨b.set i { b.getD i default with selectedPathElement := true }, ?_, hb', ?_⟩
      · rw [hred, hbpar]
      · intro j
        rw [parentChain_none hpar fuel]
        by_cases hji : j = i
        · subst hji
          rw [getD_set_self hib, if_pos (List.mem_singleton.mpr rfl)]
        · rw [getD_set_other _ (fun h => hji h.symm),
            if_neg (fun h => hji (List.mem_singleton.mp h))]
    | some p =>
      have hbpar : (b.getD i default).parent = some p := by rw [hipar, hpar]
      have hi0 : i ≠ 0 := by
        intro h0
        subst h0
        rw [(wfArena_root (e := true) hwf).2] at hpar
        exact Option.noConfusion hpar
      obtain ⟨p', hp', hplt, _⟩ := wfArena_parent hwf hi hi0
      have hpp : p = p' := by
        have := hpar.symm.trans hp'
        injection this
      subst hpp
      obtain ⟨b2, hw, hb2, hf2⟩ := ih _ p hb' (by omega) (by omega)
      refine ⟨b2, ?_, hb2, ?_⟩
      · rw [hred, hbpar]
        exact hw
      · intro j
        rw [hf2 j, parentChain_some hpar fuel]
        by_cases hjc : j ∈ parentChain a fuel p
        · rw [if_pos hjc, if_pos (List.mem_cons_of_mem _ hjc)]
        · rw [if_neg hjc]
          by_cases hji : j = i
          · subst hji
            rw [getD_set_self hib, if_pos (List.mem_cons_self _ _)]
          · rw [getD_set_other _ (fun h => hji h.symm),
              if_neg (fun h => by
                rcases List.mem_cons.mp h with rfl | h
                · exact hji rfl
                · exact hjc h)]

/-- `any` over a filtered list. -/
theorem any_filter_eq (p q : ℕ → Bool) : ∀ (l : List ℕ),
    (l.filter p).any q = l.any fun x => p x && q x := by
  intro l
  induction l with
  | nil => rfl
  | cons x xs ih =>
    cases hp : p x with
    | true =>
      rw [List.filter_cons_of_pos hp, List.any_cons, List.any_cons, ih, hp, Bool.true_and]
    | false =>
      rw [List.filter_cons_of_neg (by rw [hp]; exact Bool.false_ne_true),
        List.any_cons, ih, hp, Bool.false_and, Bool.false_or]

/-- `contains` is decidable membership. -/
theorem contains_eq_decide_mem (l : List ℕ) (j : ℕ) :
    l.contains j = decide (j ∈ l) := by
  by_cases h : j ∈ l
  · have h1 : l.contains j = true := List.elem_iff.mpr h
    rw [h1, decide_eq_true h]
  · have h1 : l.contains j = false := by
      cases hc : l.contains j
      · rfl
      · exact absurd (List.elem_iff.mp hc) h
    rw [h1, decide_eq_false h]

/-- Leaf collection only depends on the flag-erased arena. -/
theorem getLeafNodes_congr {b a : List PNode} (h : clearFlags b = clearFlags a) :
    getLeafNodes b = getLeafNodes a := by
  obtain ⟨hlen, hfields⟩ := clearFlags_fields h
  simp only [getLeafNodes]
  rw [hlen]
  exact List.filter_congr (fun i _ => by rw [(hfields i).1])

/-- With an empty target set no leaf is selected. -/
theorem leafIdSelected_nil (nd : PNode) : leafIdSelected [] nd = false := by
  unfold leafIdSelected
  cases nd.leafId <;> rfl

/-- With an empty target set nothing is marked. -/
theorem markedB_nil (a : List PNode) (j : ℕ) : markedB [] a j = false := by
  unfold markedB
  refine List.any_eq_false.mpr fun l _ => ?_
  rw [leafIdSelected_nil, Bool.false_and]
  exact Bool.false_ne_true

/-- Pointwise-equal predicates give equal `any`. -/
theorem any_congr_mem {p q : ℕ → Bool} : ∀ {l : List ℕ},
    (∀ x ∈ l, p x = q x) → l.any p = l.any q := by
  intro l
  induction l with
  | nil =>
    intro _
    rfl
  | cons x xs ih =>
    intro h
    rw [List.any_cons, List.any_cons, h x (List.mem_cons_self _ _),
      ih (fun y hy => h y (List.mem_cons_of_mem _ hy))]

/-- Folding the upward marking walk over a list of in-range start indices:
it succeeds, only flags change, and a flag ends `true` exactly when it was
`true` before or lies on some start index's parent chain. -/
theorem foldWalkUp_spec {a : List PNode} (hwf : wfArena a = true) :
    ∀ (ls : List ℕ) (b : List PNode), clearFlags b = clearFlags a →
      (∀ l ∈ ls, l < a.length) →
      ∃ b2, (ls.foldlM (fun acc i => walkUpMark acc (acc.length + 1) i) b) = .ok b2 ∧
        clearFlags b2 = clearFlags a ∧
        ∀ j, (b2.getD j default).selectedPathElement =
          ((ls.any fun l => decide (j ∈ parentChain a (a.length + 1) l)) ||
            (b.getD j default).selectedPathElement) := by
  intro ls
  induction ls with
  | nil =>
    intro b hb hls
    refine ⟨b, rfl, hb, ?_⟩
    intro j
    rw [List.any_nil, Bool.false_or]
  | cons l ls ihl =>
    intro b hb hls
    have hll : l < a.length := hls l (List.mem_cons_self _ _)
    have hlen : b.length = a.length := (clearFlags_fields hb).1
    obtain ⟨b1, hw, hb1, hf1⟩ := walkUpMark_spec hwf (b.length + 1) b l hb hll (by omega)
    obtain ⟨b2, hfold, hb2, hf2⟩ := ihl b1 hb1 (fun x hx => hls x (List.mem_cons_of_mem _ hx))
    refine ⟨b2, ?_, hb2, ?_⟩
    · simp only [List.foldlM_cons]
      rw [hw]
      exact hfold
    · intro j
      rw [hf2 j, hf1 j, show parentChain a (b.length + 1) l =
        parentChain a (a.length + 1) l from by rw [hlen], List.any_cons]
      by_cases hjc : j ∈ parentChain a (a.length + 1) l
      · rw [if_pos hjc, decide_eq_true hjc]
        simp
      · rw [if_neg hjc, decide_eq_false hjc]
        simp

/-- One run of `markPathElements` on any flag-variant of a well-formed
arena: it succeeds, only flags change, and the resulting flags are exactly
the reference `markedB` of the underlying structure. -/
theorem markPath_run {a : List PNode} (hwf : wfArena a = true) (S : List ℤ)
    (b : List PNode) (hb : clearFlags b = clearFlags a) :
    ∃ b2, markPathElements S b = .ok b2 ∧ clearFlags b2 = clearFlags a ∧
      ∀ j, (b2.getD j default).selectedPathElement = markedB S a j := by
  have hroot := (wfArena_root (e := true) hwf).1
  have hlen : b.length = a.length := (clearFlags_fields hb).1
  obtain ⟨b1, hw, hb1, hf1⟩ := walkReset_spec hwf (b.length + 1) b 0 hb hroot (by omega)
  have hall : ∀ j, (b1.getD j default).selectedPathElement = false := by
    intro j
    rw [hf1 j]
    by_cases hj : j < a.length
    · rw [if_pos (subtreeOf_all hwf j hj (b.length + 1) (by omega))]
    · have hd : b.getD j default = default := by
        rw [List.getD_eq_get?, List.get?_eq_none.mpr (by omega)]
        rfl
      split
      · rfl
      · rw [hd]
        rfl
  have hm : markPathElements S b =
      ((getLeafNodes b1).filter fun i => leafIdSelected S (b1.getD i default)).foldlM
        (fun acc i => walkUpMark acc (acc.length + 1) i) b1 := by
    simp only [markPathElements]
    rw [hw]
  have hleafs : ((getLeafNodes b1).filter fun i => leafIdSelected S (b1.getD i default)) =
      ((getLeafNodes a).filter fun i => leafIdSelected S (a.getD i default)) := by
    rw [getLeafNodes_congr hb1]
    refine List.filter_congr (fun i _ => ?_)
    have h4 := ((clearFlags_fields hb1).2 i).2.2.2
    simp only [leafIdSelected]
    rw [h4]
  have hls : ∀ l ∈ (getLeafNodes a).filter fun i => leafIdSelected S (a.getD i default),
      l < a.length := by
    intro l hl
    have h1 := List.mem_of_mem_filter hl
    simp only [getLeafNodes] at h1
    exact List.mem_range.mp (List.mem_of_mem_filter h1)
  obtain ⟨b2, hfold, hb2, hf2⟩ := foldWalkUp_spec hwf
    ((getLeafNodes a).filter fun i => leafIdSelected S (a.getD i default)) b1 hb1 hls
  refine ⟨b2, ?_, hb2, ?_⟩
  · rw [hm, hleafs]
    exact hfold
  · intro j
    rw [hf2 j, hall j, Bool.or_false, any_filter_eq]
    unfold markedB
    refine any_congr_mem (fun l _ => ?_)
    rw [contains_eq_decide_mem]

/-- **C7** (confirmed; `getLeafNodes` and the node classes are spec-modelled,
as `TreeNodes.js` is not in the snapshot).  On every well-formed binary
arena, `markPathElements` succeeds; the resulting flags are `true` precisely
on nodes lying on the root-to-leaf path of a leaf whose `leafId` is in the
target set (the reference `markedB`); running it a second time with the same
set returns the identical arena (idempotence); and running it with the empty
set clears every flag to `false`. -/
theorem c7_markpath (S : List ℤ) (a : List PNode) (hwf : wfArena a = true) :
    ∃ a1, markPathElements S a = .ok a1 ∧
      (∀ j, (a1.getD j default).selectedPathElement = markedB S a j) ∧
      markPathElements S a1 = .ok a1 ∧
      ∃ a0, markPathElements [] a = .ok a0 ∧
        ∀ j, (a0.getD j default).selectedPathElement = false := by
  obtain ⟨a1, h1, hc1, hf1⟩ := markPath_run hwf S a rfl
  obtain ⟨a2, h2, hc2, hf2⟩ := markPath_run hwf S a1 hc1
  have ha21 : a2 = a1 := arena_eq_of (by rw [hc2, ← hc1]) (fun j => by rw [hf2 j, hf1 j])
  obtain ⟨a0, h0, hc0, hf0⟩ := markPath_run hwf [] a rfl
  refine ⟨a1, h1, hf1, ?_, a0, h0, ?_⟩
  · rw [ha21] at h2
    exact h2
  · intro j
    rw [hf0 j]
    exact markedB_nil a j

/-- **C7, witness.**  On the parsed three-node example arena with target set
`{0}`: the walk succeeds, and node 1 (the leaf with `leafId = 0`) is marked,
matching the reference characterisation. -/
theorem c7_markpath_witness :
    ((markPathElements [0] exArena3).map fun a1 =>
      ((a1.getD 1 default).selectedPathElement, markedB [0] exArena3 1)) =
      .ok (true, true) := by
  obtain ⟨a1, hok, hchar, _, _⟩ := c7_markpath [0] exArena3 (by decide)
  rw [hok]
  simp only [Except.map]
  rw [hchar 1]
  have hm : markedB [0] exArena3 1 = true := by decide
  rw [hm]

/-! ## C1 — the stack reconstruction against the pre-order reference -/

/-- `jsEqI` on two present integers. -/
theorem jsEqI_some (a b : ℤ) : jsEqI (some a) (some b) = (a == b) := rfl

/-- `jsAddOneI` on a present integer. -/
theorem jsAddOneI_some (a : ℤ) : jsAddOneI (some a) = some (a + 1) := rfl

/-- `jsLtI` on two present integers. -/
theorem jsLtI_some (a b : ℤ) : jsLtI (some a) (some b) = decide (a < b) := rfl

/-- `getLast?` of a nonempty list of naturals, as `getD`. -/
theorem getLast?_eq_getD {s : List ℕ} (h : 0 < s.length) :
    s.getLast? = some (s.getD (s.length - 1) 0) := by
  rw [List.getLast?_eq_get?, List.getD_eq_get?]
  cases hg : s.get? (s.length - 1) with
  | none =>
    rw [List.get?_eq_none] at hg
    omega
  | some v => rfl

/-- `getD` below the cut of a `take`. -/
theorem getD_take {s : List ℕ} {d m : ℕ} (h : m < d) :
    (s.take d).getD m 0 = s.getD m 0 := by
  rw [List.getD_eq_get?, List.getD_eq_get?, List.get?_take h]

/-- `getD` of an integer list at an in-range index, as `get?`. -/
theorem get?_eq_getD_int {l : List ℤ} {i : ℕ} (h : i < l.length) :
    l.get? i = some (l.getD i 0) := by
  rw [List.getD_eq_get?, List.get?_eq_get h]
  rfl

/-- `getD` on the left of an append. -/
theorem getD_append_left {l l' : List ℕ} {m : ℕ} (h : m < l.length) :
    (l ++ l').getD m 0 = l.getD m 0 := by
  rw [List.getD_eq_get?, List.getD_eq_get?, List.get?_append h]

/-- `getD` of an appended singleton at the seam. -/
theorem getD_append_last (l : List ℕ) (x : ℕ) : (l ++ [x]).getD l.length 0 = x := by
  rw [List.getD_eq_get?, List.get?_append_right (Nat.le_refl _)]
  simp

/-- `find?` over a reversed range finds the largest index satisfying the
predicate. -/
theorem find?_reverse_range {P : ℕ → Bool} : ∀ {i x : ℕ}, x < i → P x = true →
    (∀ j, x < j → j < i → P j = false) →
    ((List.range i).reverse.find? P) = some x := by
  intro i
  induction i with
  | zero =>
    intro x hx
    exact absurd hx (by omega)
  | succ i ih =>
    intro x hx hPx hmax
    rw [List.range_succ, List.reverse_append, List.reverse_singleton,
      List.singleton_append, List.find?_cons]
    by_cases hxi : x = i
    · subst hxi
      rw [hPx]
    · have hPi : P i = false := hmax i (by omega) (by omega)
      rw [hPi]
      exact ih (by omega) hPx (fun j hj1 hj2 => hmax j hj1 (by omega))

/-- The reference parent is the most recent preceding record at one depth
less. -/
theorem refParent_eq {ds : List ℤ} {i x : ℕ} (hi : i < ds.length) (hx : x < i)
    (hdx : ds.getD x 0 = ds.getD i 0 - 1)
    (hmax : ∀ j, x < j → j < i → ds.getD j 0 ≠ ds.getD i 0 - 1) :
    refParent ds i = some x := by
  unfold refParent
  refine find?_reverse_range hx ?_ ?_
  · rw [get?_eq_getD_int (lt_trans hx hi), get?_eq_getD_int hi]
    simp only [Option.map_some']
    rw [hdx]
    exact decide_eq_true rfl
  · intro j hj1 hj2
    rw [get?_eq_getD_int (lt_trans hj2 hi), get?_eq_getD_int hi]
    simp only [Option.map_some']
    refine decide_eq_false (fun he => hmax j hj1 hj2 ?_)
    injection he

/-- Filtering one more index. -/
theorem filter_range_succ (P : ℕ → Bool) (i : ℕ) :
    (List.range (i + 1)).filter P =
      (List.range i).filter P ++ (if P i then [i] else []) := by
  rw [List.range_succ, List.filter_append, List.filter_singleton]
  cases hP : P i <;> rfl

/-- Every node a record line constructs starts with no parent. -/
theorem lineToNode_parent {line : String} {nd : PNode} (h : lineToNode line = .ok nd) :
    nd.parent = none := by
  simp only [lineToNode] at h
  split at h
  · injection h with h
    subst h
    rfl
  split at h
  · injection h with h
    subst h
    rfl
  · exact Except.noConfusion h

/-- All nodes produced by the record-construction pass are parentless. -/
theorem mapM_lineToNode_parent :
    ∀ (lines : List String) (nodes : List PNode),
      mapExcept lineToNode lines = .ok nodes → ∀ nd ∈ nodes, nd.parent = none := by
  intro lines
  induction lines with
  | nil =>
    intro nodes h nd hm
    simp only [mapExcept] at h
    injection h with h
    subst h
    cases hm
  | cons l ls ih =>
    intro nodes h nd hm
    simp only [mapExcept] at h
    split at h
    · exact Except.noConfusion h
    next x h1 =>
      split at h
      · exact Except.noConfusion h
      next xs h2 =>
        injection h with h
        subst h
        rcases List.mem_cons.mp hm with rfl | hm2
        · exact lineToNode_parent h1
        · exact ih xs h2 nd hm2

/-- Inversion of a successful `add` of a later index. -/
theorem addChild_inv {a : List PNode} {p c : ℕ} {a' : List PNode}
    (h : addChild a p c = .ok a') (hpc : p ≠ c) (hc : c < a.length) :
    ∃ pn, a.get? p = some pn ∧ pn.isLeaf = false ∧
      a' = (a.set p { pn with children := pn.children ++ [c] }).set c
        { a.getD c default with parent := some p } := by
  simp only [addChild] at h
  split at h
  · exact Except.noConfusion h
  next pn hpn =>
    split at h
    · exact Except.noConfusion h
    next hleaf =>
      have hca1 : (a.set p { pn with children := pn.children ++ [c] }).get? c =
          some (a.getD c default) := by
        rw [List.get?_set_ne _ _ hpc, get?_eq_getD hc]
      rw [hca1] at h
      injection h with h
      subst h
      refine ⟨pn, hpn, ?_, rfl⟩
      cases hl : pn.isLeaf
      · rfl
      · exact absurd hl hleaf

/-- The reconstruction loop preserves length and depths. -/
theorem parseLoop_pres : ∀ (l : List ℕ) (a : List PNode) (s : List ℕ) (out : List PNode),
    parseLoop a s l = .ok out →
    out.length = a.length ∧
    ∀ j, (out.getD j default).depth = (a.getD j default).depth := by
  intro l
  induction l with
  | nil =>
    intro a s out h
    simp only [parseLoop] at h
    injection h with h
    subst h
    exact ⟨rfl, fun _ => rfl⟩
  | cons i rest ih =>
    intro a s out h
    simp only [parseLoop] at h
    split at h
    · exact Except.noConfusion h
    next latest0 _ =>
      split at h
      · exact Except.noConfusion h
      next stack1 _ =>
        split at h
        · exact Except.noConfusion h
        next latest1 _ =>
          split at h
          · exact Except.noConfusion h
          next a2 ha2 =>
            obtain ⟨hlen, hdep⟩ := ih a2 (stack1 ++ [i]) out h
            obtain ⟨hlen2, hview2⟩ := addChild_view ha2
            refine ⟨hlen.trans hlen2, fun j => ?_⟩
            have h1 := congrArg Prod.fst (hview2 j)
            exact (hdep j).trans h1

/-- The reconstruction loop invariant: starting from a stack that is the
rightmost spine (its entry at position `m` is the most recent record of
depth `m`), with all earlier records already linked as in the reference
reconstruction, a successful run links every record to its reference
parent, with the reference children in encounter order.  Requires the
depths to be integers `≥ 0`. -/
theorem parseLoop_ref {ds : List ℤ} {n : ℕ} (hn : ds.length = n)
    (hpos : ∀ j, j < n → 0 ≤ ds.getD j 0) :
    ∀ (k i : ℕ) (a : List PNode) (s : List ℕ) (out : List PNode),
      i + k = n → a.length = n → 1 ≤ i →
      (∀ j, j < n → (a.getD j default).depth = some (ds.getD j 0)) →
      0 < s.length → s.length ≤ i →
      (∀ m, m < s.length → s.getD m 0 < i ∧ ds.getD (s.getD m 0) 0 = (m : ℤ) ∧
        ∀ j, j < i → ds.getD j 0 = (m : ℤ) → j ≤ s.getD m 0) →
      (∀ j, j < n → (a.getD j default).parent =
        if j < i then refParent ds j else none) →
      (∀ j, j < n → (a.getD j default).children =
        ((List.range i).filter fun x => refParent ds x == some j)) →
      parseLoop a s (List.range' i k) = .ok out →
      (∀ j, j < n → (out.getD j default).parent = refParent ds j) ∧
      (∀ j, j < n → (out.getD j default).children = refChildren ds j) := by
  intro k
  induction k with
  | zero =>
    intro i a s out hik hlen hi1 hdep hs0 hsn hstack hpar hch h
    simp only [List.range'] at h
    simp only [parseLoop] at h
    injection h with h
    subst h
    constructor
    · intro j hj
      rw [hpar j hj, if_pos (by omega)]
    · intro j hj
      rw [hch j hj]
      unfold refChildren
      have hieq : i = n := by omega
      rw [hn, hieq]
  | succ k ih =>
    intro i a s out hik hlen hi1 hdep hs0 hsn hstack hpar hch h
    have hin : i < n := by omega
    rw [List.range'_succ] at h
    simp only [parseLoop] at h
    split at h
    · exact Except.noConfusion h
    next latest0 hlast0 =>
      have hl0 : latest0 = s.getD (s.length - 1) 0 := by
        rw [getLast?_eq_getD hs0] at hlast0
        injection hlast0 with h'
        exact h'.symm
      obtain ⟨hl0lt, hl0d, hl0max⟩ := hstack (s.length - 1) (by omega)
      rw [← hl0] at hl0lt hl0d hl0max
      have hdi := hdep i hin
      have hdl := hdep latest0 (by omega)
      rw [hdi, hdl, jsAddOneI_some, jsEqI_some, jsEqI_some, jsLtI_some] at h
      have hdsi0 : 0 ≤ ds.getD i 0 := hpos i hin
      have main : ∀ (stack1 : List ℕ), stack1 = s.take (ds.getD i 0).toNat →
          (ds.getD i 0).toNat ≤ s.length →
          (match stack1.getLast? with
           | none => (Except.error JSErr.typeError : Except JSErr (List PNode))
           | some latest1 =>
             match addChild a latest1 i with
             | .error e => Except.error e
             | .ok a2 => parseLoop a2 (stack1 ++ [i]) (List.range' (i + 1) k)) = .ok out →
          (∀ j, j < n → (out.getD j default).parent = refParent ds j) ∧
          (∀ j, j < n → (out.getD j default).children = refChildren ds j) := by
        intro stack1 hs1take hdile hm
        split at hm
        · exact Except.noConfusion hm
        next latest1 hlast1 =>
          have hdi1 : 1 ≤ (ds.getD i 0).toNat := by
            rcases Nat.eq_zero_or_pos (ds.getD i 0).toNat with h0 | h1
            · rw [hs1take, h0] at hlast1
              simp at hlast1
            · exact h1
          have hstack1len : stack1.length = (ds.getD i 0).toNat := by
            rw [hs1take, List.length_take]
            omega
          have htpos : 0 < (s.take (ds.getD i 0).toNat).length := by
            rw [List.length_take]
            omega
          have hticky : (s.take (ds.getD i 0).toNat).length - 1 = (ds.getD i 0).toNat - 1 := by
            rw [List.length_take]
            omega
          have hlat1 : latest1 = s.getD ((ds.getD i 0).toNat - 1) 0 := by
            rw [hs1take, getLast?_eq_getD htpos] at hlast1
            injection hlast1 with h'
            rw [← h', hticky, getD_take (by omega)]
          obtain ⟨hplt, hpd, hpmax⟩ := hstack ((ds.getD i 0).toNat - 1) (by omega)
          rw [← hlat1] at hplt hpd hpmax
          have hdsieq : ds.getD i 0 = ((ds.getD i 0).toNat : ℤ) := by omega
          have hrefi : refParent ds i = some latest1 := by
            refine refParent_eq (by omega) hplt ?_ ?_
            · rw [hpd]
              omega
            · intro j hj1 hj2 heqj
              have hj3 : ds.getD j 0 = (((ds.getD i 0).toNat - 1 : ℕ) : ℤ) := by omega
              exact absurd (hpmax j hj2 hj3) (by omega)
          split at hm
          · exact Except.noConfusion hm
          next a2 ha2 =>
            obtain ⟨pn, hpn, hpleaf, ha2eq⟩ := addChild_inv ha2 (by omega) (by omega)
            have hpnd : a.getD latest1 default = pn := by
              rw [List.getD_eq_get?, hpn]
              rfl
            have hseta : (a.set latest1
                { pn with children := pn.children ++ [i] }).length = n := by
              rw [List.length_set]
              exact hlen
            have hA2c : a2.getD i default =
                { a.getD i default with parent := some latest1 } := by
              rw [ha2eq]
              exact getD_set_self (by rw [hseta]; omega) _
            have hA2p : a2.getD latest1 default =
                { pn with children := pn.children ++ [i] } := by
              rw [ha2eq, getD_set_other _ (by omega : i ≠ latest1)]
              exact getD_set_self (by omega) _
            have hA2o : ∀ j, j ≠ i → j ≠ latest1 →
                a2.getD j default = a.getD j default := by
              intro j hji hjl
              rw [ha2eq, getD_set_other _ (fun he => hji he.symm),
                getD_set_other _ (fun he => hjl he.symm)]
            obtain ⟨hlen2, hview2⟩ := addChild_view ha2
            refine ih (i + 1) a2 (stack1 ++ [i]) out (by omega)
              (hlen2.trans hlen) (by omega) ?_ (by simp) ?_ ?_ ?_ ?_ hm
            · intro j hj
              exact (congrArg Prod.fst (hview2 j)).trans (hdep j hj)
            · rw [List.length_append, hstack1len]
              simp only [List.length_singleton]
              omega
            · intro m hml
              rw [List.length_append, hstack1len, List.length_singleton] at hml
              by_cases hmd : m < (ds.getD i 0).toNat
              · have hgm : (stack1 ++ [i]).getD m 0 = s.getD m 0 := by
                  rw [getD_append_left (by omega), hs1take, getD_take hmd]
                rw [hgm]
                obtain ⟨q1, q2, q3⟩ := hstack m (by omega)
                refine ⟨by omega, q2, ?_⟩
                intro j hj hjd
                rcases Nat.lt_succ_iff_lt_or_eq.mp hj with hj | rfl
                · exact q3 j hj hjd
                · exact absurd hjd (by omega)
              · have hmde : m = (ds.getD i 0).toNat := by omega
                have hgm : (stack1 ++ [i]).getD m 0 = i := by
                  rw [hmde, ← hstack1len]
                  exact getD_append_last stack1 i
                rw [hgm]
                refine ⟨by omega, by omega, ?_⟩
                intro j hj _
                omega
            · intro j hj
              by_cases hji : j = i
              · subst hji
                rw [hA2c]
                have : ({ a.getD j default with parent := some latest1 } : PNode).parent =
                    some latest1 := rfl
                rw [this, if_pos (by omega), hrefi]
              · by_cases hjl : j = latest1
                · subst hjl
                  rw [hA2p]
                  have : ({ pn with children := pn.children ++ [i] } : PNode).parent =
                      pn.parent := rfl
                  rw [this, ← hpnd, hpar j hj, if_pos (by omega), if_pos (by omega)]
                · rw [hA2o j hji hjl, hpar j hj]
                  by_cases hjlt : j < i
                  · rw [if_pos hjlt, if_pos (by omega)]
                  · rw [if_neg hjlt, if_neg (by omega)]
            · intro j hj
              rw [filter_range_succ]
              by_cases hjl : j = latest1
              · subst hjl
                rw [hA2p]
                have : ({ pn with children := pn.children ++ [i] } : PNode).children =
                    pn.children ++ [i] := rfl
                rw [this, ← hpnd, hch j hj]
                congr 1
                rw [if_pos (by rw [hrefi]; exact beq_self_eq_true _)]
              · have hfalse : (refParent ds i == some j) = false := by
                  rw [hrefi]
                  refine beq_eq_false_iff_ne.mpr ?_
                  intro he
                  injection he with he
                  exact hjl he.symm
                rw [hfalse]
                simp only [Bool.false_eq_true, if_false, List.append_nil]
                by_cases hji : j = i
                · subst hji
                  rw [hA2c]
                  have : ({ a.getD j default with parent := some latest1 } : PNode).children =
                      (a.getD j default).children := rfl
                  rw [this, hch j hj]
                · rw [hA2o j hji hjl, hch j hj]
      split at h
      · exact Except.noConfusion h
      next stack1 heq =>
        by_cases hc1 : ds.getD i 0 = ds.getD latest0 0 + 1
        · rw [if_pos (beq_iff_eq.mpr hc1)] at heq
          injection heq with heq
          have hdieq : (ds.getD i 0).toNat = s.length := by omega
          refine main stack1 ?_ (by omega) h
          rw [← heq, hdieq, List.take_length]
        · rw [if_neg (fun hb => hc1 (beq_iff_eq.mp hb))] at heq
          by_cases hc2 : ds.getD i 0 = ds.getD latest0 0
          · rw [if_pos (beq_iff_eq.mpr hc2)] at heq
            injection heq with heq
            have hdieq : (ds.getD i 0).toNat = s.length - 1 := by omega
            refine main stack1 ?_ (by omega) h
            rw [← heq, hdieq, List.dropLast_eq_take]
          · rw [if_neg (fun hb => hc2 (beq_iff_eq.mp hb))] at heq
            by_cases hc3 : ds.getD i 0 < ds.getD latest0 0
            · rw [if_pos (decide_eq_true hc3)] at heq
              injection heq with heq
              refine main stack1 ?_ (by omega) h
              rw [← heq]
              simp only [jsSliceZero, if_pos hdsi0]
            · rw [if_neg (fun hb => hc3 (of_decide_eq_true hb))] at heq
              exact Option.noConfusion heq

/-- **C1** (corrected: the equivalence with the pre-order reference
reconstruction needs the depth sequence to start at `0` and stay `≥ 0`;
the parser accepts sequences violating this, and then builds a different
tree — see the counterexample).  For every accepted input whose record
depths all parse as integers `≥ 0` with the first record at depth `0`, the
stack rule gives every record the reference parent (the nearest preceding
record one level shallower) and the reference children in encounter
order. -/
theorem c1_stack_reference (text : String) (a : List PNode) (ds : List ℤ)
    (hok : parseStatisticsContent text = .ok a)
    (hds : depthsOf a = ds.map some)
    (h0 : ds.getD 0 0 = 0)
    (hpos : ∀ j, j < ds.length → 0 ≤ ds.getD j 0) :
    (∀ j, j < a.length → (a.getD j default).parent = refParent ds j) ∧
    (∀ j, j < a.length → (a.getD j default).children = refChildren ds j) := by
  simp only [parseStatisticsContent] at hok
  split at hok
  · exact Except.noConfusion hok
  next nodes hnodes =>
    rcases nodes with _ | ⟨nd0, ntl⟩
    · have ha : ([] : List PNode) = a := by injection hok
      constructor <;>
      · intro j hj
        rw [← ha] at hj
        simp at hj
    · have hok' : parseLoop (nd0 :: ntl) [0]
          (List.range' 1 ((nd0 :: ntl).length - 1)) = .ok a := hok
      obtain ⟨hlenout, hdepout⟩ := parseLoop_pres _ _ _ _ hok'
      have hlds : ds.length = a.length := by
        have h1 := congrArg List.length hds
        simp only [depthsOf, List.length_map] at h1
        exact h1.symm
      have hdsj : ∀ j, j < a.length → (a.getD j default).depth = some (ds.getD j 0) := by
        intro j hj
        have h1 := congrArg (fun l => List.get? l j) hds
        simp only [depthsOf] at h1
        rw [List.get?_map, List.get?_map, get?_eq_getD hj,
          get?_eq_getD_int (by omega)] at h1
        simp only [Option.map_some'] at h1
        injection h1 with h2
      have hdepnodes : ∀ j, j < (nd0 :: ntl).length →
          (((nd0 :: ntl)).getD j default).depth = some (ds.getD j 0) := by
        intro j hj
        rw [← hdepout j]
        exact hdsj j (by omega)
      have hmemj : ∀ j, j < (nd0 :: ntl).length →
          (nd0 :: ntl).getD j default ∈ (nd0 :: ntl) := by
        intro j hj
        rw [List.getD_eq_get?, List.get?_eq_get hj]
        exact List.get_mem _ _ _
      have hch0 : ∀ j, j < (nd0 :: ntl).length →
          (((nd0 :: ntl)).getD j default).children = [] :=
        fun j hj => mapM_lineToNode_children _ _ hnodes _ (hmemj j hj)
      have hpar0 : ∀ j, j < (nd0 :: ntl).length →
          (((nd0 :: ntl)).getD j default).parent = none :=
        fun j hj => mapM_lineToNode_parent _ _ hnodes _ (hmemj j hj)
      have hstackinv : ∀ m, m < ([0] : List ℕ).length → ([0] : List ℕ).getD m 0 < 1 ∧
          ds.getD (([0] : List ℕ).getD m 0) 0 = (m : ℤ) ∧
          ∀ j, j < 1 → ds.getD j 0 = (m : ℤ) → j ≤ ([0] : List ℕ).getD m 0 := by
        intro m hm
        simp only [List.length_singleton] at hm
        have hm0 : m = 0 := by omega
        subst hm0
        refine ⟨by decide, ?_, ?_⟩
        · exact h0
        · intro j hj _
          show j ≤ 0
          omega
      have hparinv : ∀ j, j < (nd0 :: ntl).length →
          (((nd0 :: ntl)).getD j default).parent =
            if j < 1 then refParent ds j else none := by
        intro j hj
        rw [hpar0 j hj]
        by_cases hj0 : j < 1
        · rw [if_pos hj0]
          have hj00 : j = 0 := by omega
          subst hj00
          rfl
        · rw [if_neg hj0]
      have hchinv : ∀ j, j < (nd0 :: ntl).length →
          (((nd0 :: ntl)).getD j default).children =
            ((List.range 1).filter fun x => refParent ds x == some j) := by
        intro j hj
        rw [hch0 j hj]
        rfl
      have hdslen : ds.length = (nd0 :: ntl).length := by rw [hlds, hlenout]
      obtain ⟨hp, hc⟩ := parseLoop_ref hdslen
        (fun j hj => hpos j (by omega)) ((nd0 :: ntl).length - 1) 1 (nd0 :: ntl) [0] a
        (by simp only [List.length_cons]; omega) rfl (le_refl 1) hdepnodes
        (by decide) (by decide) hstackinv hparinv hchinv hok'
      constructor
      · intro j hj
        exact hp j (by omega)
      · intro j hj
        exact hc j (by omega)

/-- **C1, counterexample.**  The depth sequence `[5, 6, 5]` is accepted by
the parser (the truncation `slice(0, 5)` of a 2-entry stack keeps
everything), and record 2 (depth 5) is attached to record 1 (depth 6) —
while the reference reconstruction gives record 2 no parent at all (no
preceding record has depth 4).  The parser's result is not the pre-order
reference reconstruction. -/
theorem c1_counterexample :
    ((parseStatisticsContent exTreeFive).map fun a =>
      ((a.getD 2 default).parent, refParent [5, 6, 5] 2)) = .ok (some 1, none) ∧
    some 1 ≠ (none : Option ℕ) :=
  ⟨by decide, by decide⟩

set_option maxRecDepth 8000 in
/-- **C1, witness.**  On the eight-record file with depth sequence
`[0, 1, 2, 2, 1, 2, 3, 3]` the theorem applies: record 4 gets the reference
parent (the root) and the root gets the reference children `[1, 4]`. -/
theorem c1_stack_reference_witness :
    ((parseStatisticsContent exTreePre).map fun a =>
      ((a.getD 4 default).parent, (a.getD 0 default).children)) =
      .ok (refParent [0, 1, 2, 2, 1, 2, 3, 3] 4,
           refChildren [0, 1, 2, 2, 1, 2, 3, 3] 0) := by
  cases hok : parseStatisticsContent exTreePre with
  | error e =>
    have hsome : (parseStatisticsContent exTreePre).toOption.isSome = true := by decide
    rw [hok] at hsome
    exact Bool.noConfusion hsome
  | ok a =>
    have hds : depthsOf a = ([0, 1, 2, 2, 1, 2, 3, 3] : List ℤ).map some := by
      have h' : (parseStatisticsContent exTreePre).map depthsOf =
          .ok (([0, 1, 2, 2, 1, 2, 3, 3] : List ℤ).map some) := by decide
      rw [hok] at h'
      simp only [Except.map] at h'
      injection h' with h''
    have hlen : a.length = 8 := by
      have h' : (parseStatisticsContent exTreePre).map List.length = .ok 8 := by decide
      rw [hok] at h'
      simp only [Except.map] at h'
      injection h' with h''
    obtain ⟨hp, hc⟩ := c1_stack_reference exTreePre a [0, 1, 2, 2, 1, 2, 3, 3] hok hds
      (by decide) (by decide)
    simp only [Except.map]
    rw [hp 4 (by omega), hc 0 (by omega)]
